import Mathlib

/-!
Verification of the streaming JSON-object extractor and per-object enrichment
pipeline in `src/backend/main.py` (the `event_generator` inside `/api/reply`,
lines 351-433).

The scanner state (`accumulated_content`, `bracket_count`, `in_string`,
`escape_next`, `object_start`) and its character-level transition are
translated directly from the `for i, char in enumerate(delta)` loop
(lines 376-427).  Python strings are modelled as `List Char`, Python `int`
as `ℤ`, `json.loads` as an abstract `parse : List Char → Option J`
parameter (the per-slice success/failure of the library call), and the two
external collaborators (Unsplash search, Piper TTS) as oracle functions
returning `Except`.
-/

set_option maxHeartbeats 1000000

namespace Tutor

/-! ## Decimal rendering of integers (Python `str`/`json` digits) -/

/-- The decimal digit character for `d < 10` (codepoint `48 + d`). -/
def digitC (d : Nat) : Char := Char.ofNat (48 + d)

/-- Decimal digits of a natural number, most significant first. -/
def natC (n : Nat) : List Char :=
  if n < 10 then [digitC n] else natC (n / 10) ++ [digitC (n % 10)]
termination_by n
decreasing_by exact Nat.div_lt_self (by omega) (by omega)

/-- Decimal rendering of an integer (with leading `-` when negative). -/
def intC (n : Int) : List Char :=
  if n < 0 then '-' :: natC (-n).toNat else natC n.toNat

/-! ## Python values of a parsed flat canvas object

`json.loads` on a flat object in this pipeline yields a `dict` whose values
are strings, numbers, booleans or `None`; the spec's scope (§3.2) is flat
objects, so nested containers are not modelled. -/

/-- A scalar Python value inside a parsed canvas-element object. -/
inductive PyVal where
  | str (s : String)
  | int (n : Int)
  | bool (b : Bool)
  | none
  deriving DecidableEq

/-- A parsed flat object: a Python dict as an insertion-ordered list of
key/value bindings (keys unique, as produced by `json.loads`). -/
abbrev Obj := List (String × PyVal)

/-- First-match lookup, `Option.none` when the key is absent
(distinguishes an absent field from a field stored as Python `None`). -/
def lookupKey : Obj → String → Option PyVal
  | [], _ => Option.none
  | (k, v) :: r, key => if k = key then some v else lookupKey r key

/-- Python `obj.get(key)`: the stored value, or `None` when absent. -/
def dictGet (o : Obj) (k : String) : PyVal := (lookupKey o k).getD PyVal.none

/-- Python `obj[key] = v` / one pair of `obj.update({...})`: replace the
binding in place if the key exists (keeping its position), else append. -/
def setKey : Obj → String → PyVal → Obj
  | [], k, v => [(k, v)]
  | (k', v') :: r, k, v => if k' = k then (k, v) :: r else (k', v') :: setKey r k v

/-- Python truthiness of the values above (`if obj.get("search"):`). -/
def truthy : PyVal → Bool
  | .str s => s ≠ ""
  | .int n => n ≠ 0
  | .bool b => b
  | .none => false

/-- Python `isinstance(x, int)`: true for `int` and for `bool`
(`bool` is a subclass of `int` in Python). -/
def pyIsInstInt : PyVal → Bool
  | .int _ => true
  | .bool _ => true
  | _ => false

/-- Numeric value used when an `int`-instance participates in arithmetic
(`True == 1`, `False == 0`); other cases never reach arithmetic. -/
def pyNumVal : PyVal → Int
  | .int n => n
  | .bool b => if b then 1 else 0
  | _ => 0

/-- f-string rendering of the values above (`f"...{obj['search']}..."`). -/
def pyStr : PyVal → String
  | .str s => s
  | .int n => String.mk (intC n)
  | .bool b => if b then "True" else "False"
  | .none => "None"

/-- Python `int()` applied to a (here: exact rational) quotient:
truncation toward zero. -/
def pyTrunc (q : ℚ) : Int := if 0 ≤ q then ⌊q⌋ else ⌈q⌉

/-! ## Per-object enrichment (main.py lines 393-423) -/

/-- The dictionary returned by `search_for_image_on_unsplash` on success:
`{"imageUrl": ..., "width": ..., "height": ...}` with integer dimensions. -/
structure ImageResult where
  imageUrl : String
  width : Int
  height : Int
  deriving DecidableEq

/-- Outcomes of the two external collaborators for one request:
`search_for_image_on_unsplash` (any raised exception is `.error`, covering
missing API key, network/HTTP errors, empty results and malformed provider
data) and `voice.synthesize_wav`-plus-base64 (`.ok` carries the base64
payload).  `voice` is whether a voice object is available (line 354). -/
structure Oracles where
  search_for_image_on_unsplash : PyVal → Except Unit ImageResult
  synthesize_wav : PyVal → Except Unit String
  voice : Bool

/-- Image-search enrichment, main.py lines 394-410: on success set
`imageUrl`/`width`/`height` (height via `int(final_width * aspect_ratio)`),
on any search failure turn the object into a text error placeholder. -/
def imageStep (search : PyVal → Except Unit ImageResult) (obj : Obj) : Obj :=
  if dictGet obj "type" = PyVal.str "image" ∧ truthy (dictGet obj "search") = true then
    match search (dictGet obj "search") with
    | .ok d =>
        let aspect_ratio : ℚ := if 0 < d.width then (d.height : ℚ) / (d.width : ℚ) else 1
        let final_width : PyVal :=
          if pyIsInstInt (dictGet obj "width") = true then dictGet obj "width" else PyVal.int 350
        setKey (setKey (setKey obj "imageUrl" (PyVal.str d.imageUrl)) "width" final_width)
          "height" (PyVal.int (pyTrunc ((pyNumVal final_width : ℚ) * aspect_ratio)))
    | .error _ =>
        setKey (setKey (setKey obj "type" (PyVal.str "text")) "content"
            (PyVal.str ("**Error:** Could not find image for '" ++ pyStr (dictGet obj "search") ++ "'")))
          "textColor" (PyVal.str "#ef4444")
  else obj

/-- TTS enrichment, main.py lines 412-423: when `speakAloud` is truthy and a
voice is loaded, attach the base64 wav as `audioDataUrl`; on synthesis
failure store an explicit `None` in that field. -/
def ttsStep (synthesize : PyVal → Except Unit String) (voice : Bool) (obj : Obj) : Obj :=
  let narration_text := dictGet obj "speakAloud"
  if truthy narration_text = true ∧ voice = true then
    match synthesize narration_text with
    | .ok b64 => setKey obj "audioDataUrl" (PyVal.str ("data:audio/wav;base64," ++ b64))
    | .error _ => setKey obj "audioDataUrl" PyVal.none
  else obj

/-- Full enrichment of one parsed object, in source order: image search
(lines 394-410) then narration synthesis (lines 412-423). -/
def enrichObject (orc : Oracles) (obj : Obj) : Obj :=
  ttsStep orc.synthesize_wav orc.voice (imageStep orc.search_for_image_on_unsplash obj)

/-! ## The streaming scanner state machine (main.py lines 365-427) -/

/-- The scanner's mutable state (lines 365-369), plus the log of objects
passed to enrichment so far (the successful `json.loads` results, i.e. the
pre-enrichment emissions).  `object_start = -1` encodes "none". -/
structure ScanState (J : Type) where
  accumulated_content : List Char
  bracket_count : Int
  in_string : Bool
  escape_next : Bool
  object_start : Int
  emitted : List J
  deriving DecidableEq

/-- The state at line 369: empty accumulator, depth 0, not in a string,
no pending escape, no recorded object start, nothing emitted. -/
def initState {J : Type} : ScanState J :=
  { accumulated_content := []
    bracket_count := 0
    in_string := false
    escape_next := false
    object_start := -1
    emitted := [] }

/-- One iteration of `for i, char in enumerate(delta)` (lines 376-427).

The character's absolute position `pos` is its index in
`accumulated_content`; we append characters one at a time, so after the
append the accumulator holds exactly `pos + 1` characters and the Python
slice `accumulated_content[object_start : pos + 1]` is
`acc.drop object_start` (Python appends the whole delta up front, but the
slice never reads past `pos`, so the two disciplines agree).
`parse` models `json.loads` restricted to its success/failure on a slice;
only `json.JSONDecodeError` (= `Option.none`) is caught at line 426. -/
def processChar {J : Type} (parse : List Char → Option J) (st : ScanState J) (c : Char) :
    ScanState J :=
  let pos : Nat := st.accumulated_content.length
  let acc : List Char := st.accumulated_content ++ [c]
  if st.in_string then
    if st.escape_next then { st with accumulated_content := acc, escape_next := false }
    else if c = '\\' then { st with accumulated_content := acc, escape_next := true }
    else if c = '"' then { st with accumulated_content := acc, in_string := false }
    else { st with accumulated_content := acc }
  else
    if c = '"' then { st with accumulated_content := acc, in_string := true }
    else if c = '{' then
      { st with accumulated_content := acc
                object_start := if st.bracket_count = 0 then (pos : Int) else st.object_start
                bracket_count := st.bracket_count + 1 }
    else if c = '}' then
      if st.bracket_count - 1 = 0 ∧ st.object_start ≠ -1 then
        match parse (acc.drop st.object_start.toNat) with
        | some obj =>
            { st with accumulated_content := acc
                      bracket_count := st.bracket_count - 1
                      emitted := st.emitted ++ [obj] }
        | Option.none =>
            { st with accumulated_content := acc, bracket_count := st.bracket_count - 1 }
      else { st with accumulated_content := acc, bracket_count := st.bracket_count - 1 }
    else { st with accumulated_content := acc }

/-- Scan a list of characters in arrival order. -/
def scanList {J : Type} (parse : List Char → Option J) (st : ScanState J) (l : List Char) :
    ScanState J :=
  l.foldl (processChar parse) st

/-- The chunk loop `async for chunk in response_stream` (lines 371-376):
each delta's characters are scanned in order (an empty delta is skipped by
`if not delta: continue`, which `scanList st [] = st` reproduces). -/
def scanChunks {J : Type} (parse : List Char → Option J) (chunks : List (List Char)) :
    ScanState J :=
  chunks.foldl (scanList parse) initState

/-- One server-sent event yielded by `event_generator`: a `data:` event with
a (possibly enriched) object (line 425), the terminal `data: [DONE]`
sentinel (line 430), or the terminal error event (line 433). -/
inductive SseEvent where
  | data (o : Obj)
  | done
  | err (msg : String)
  deriving DecidableEq

/-- The full sequence of events yielded by `event_generator` for a run in
which the producer delivered `chunks` and then either finished normally
(`streamError = none`, line 430) or raised an exception not caught by the
per-object handlers (`streamError = some msg`: the outer `except` at
lines 431-433 yields one error event and the generator stops).  Each
successfully parsed object is enriched and yielded in scan order
(line 425). -/
def event_generator (parse : List Char → Option Obj) (orc : Oracles)
    (chunks : List (List Char)) (streamError : Option String) : List SseEvent :=
  ((scanChunks parse chunks).emitted.map fun o => SseEvent.data (enrichObject orc o)) ++
    match streamError with
    | Option.none => [SseEvent.done]
    | some msg => [SseEvent.err msg]

/-! ## Serialization of flat JSON arrays

The `/api/reply` producer is a language model whose concatenated output is a
JSON array of flat objects (spec §3.1).  To quantify over that input class
we give the abstract data model of such an array — a list of flat objects,
each a list of string-keyed scalar members — together with its textual
form (the standard JSON grammar for this fragment, with the common
backslash escapes inside string literals and optional whitespace between
top-level tokens). -/

/-- A scalar JSON value inside a flat object. -/
inductive JVal where
  | str (s : String)
  | int (n : Int)
  | bool (b : Bool)
  | null
  deriving DecidableEq

/-- A flat JSON object: string keys, scalar values. -/
abbrev JObj := List (String × JVal)

/-- JSON string-literal escaping of one character: `"` and `\` must be
escaped, the common control characters use their two-character escapes,
every other character stands for itself. -/
def escChar (c : Char) : List Char :=
  if c = '"' then ['\\', '"']
  else if c = '\\' then ['\\', '\\']
  else if c = '\n' then ['\\', 'n']
  else if c = '\t' then ['\\', 't']
  else if c = '\r' then ['\\', 'r']
  else [c]

/-- Escaped body of a JSON string literal. -/
def escList (l : List Char) : List Char := (l.map escChar).flatten

/-- A JSON string literal: `"` body `"`. -/
def strLitC (l : List Char) : List Char := '"' :: escList l ++ ['"']

/-- Serialization of a scalar JSON value. -/
def valC : JVal → List Char
  | .str s => strLitC s.toList
  | .int n => intC n
  | .bool true => ['t', 'r', 'u', 'e']
  | .bool false => ['f', 'a', 'l', 's', 'e']
  | .null => ['n', 'u', 'l', 'l']

/-- Serialization of one `"key":value` member. -/
def memberC (k : String) (v : JVal) : List Char := strLitC k.toList ++ ':' :: valC v

/-- Comma-separated members of a flat object. -/
def membersC : JObj → List Char
  | [] => []
  | [(k, v)] => memberC k v
  | (k, v) :: r => memberC k v ++ ',' :: membersC r

/-- Serialization of a flat object (no whitespace inside). -/
def serializeObjC (o : JObj) : List Char := '{' :: membersC o ++ ['}']

/-- Comma-separated body of a canonical (whitespace-free) array. -/
def bodyC : List JObj → List Char
  | [] => []
  | [o] => serializeObjC o
  | o :: r => serializeObjC o ++ ',' :: bodyC r

/-- Canonical serialization of an array of flat objects. -/
def serializeArrC (objs : List JObj) : List Char := '[' :: bodyC objs ++ [']']

/-- An array item together with the whitespace printed before and after it
(between top-level tokens; objects themselves are canonical). -/
abbrev WsItem := List Char × JObj × List Char

/-- Body of an array with whitespace slots around each object. -/
def bodyWs : List WsItem → List Char
  | [] => []
  | [(a, o, b)] => a ++ serializeObjC o ++ b
  | (a, o, b) :: r => a ++ serializeObjC o ++ b ++ ',' :: bodyWs r

/-- Serialization of an array of flat objects with whitespace between the
top-level tokens (`wEnd` is the slot before the closing bracket, used when
the array is empty; for a nonempty array the last item's trailing slot
plays that role). -/
def serializeArrWs (items : List WsItem) (wEnd : List Char) : List Char :=
  '[' :: bodyWs items ++ wEnd ++ [']']

/-- JSON insignificant whitespace. -/
def isWs (c : Char) : Prop := c = ' ' ∨ c = '\n' ∨ c = '\t' ∨ c = '\r'

instance (c : Char) : Decidable (isWs c) := by unfold isWs; infer_instance

/-- What one complete object contributes to the emission log: the
`json.loads` result if the slice parses, nothing otherwise. -/
def emitOf {J : Type} (parse : List Char → Option J) (o : JObj) : List J :=
  match parse (serializeObjC o) with
  | some j => [j]
  | Option.none => []

/-- Offset, inside an array body whose objects serialize with lengths
`lens`, of the opening brace of object `k` (each earlier object is followed
by one comma).  At `k = lens.length` this is one past the body's end. -/
def objOffsets : List Nat → Nat → Nat
  | _, 0 => 0
  | [], _ + 1 => 0
  | a :: r, k + 1 => a + 1 + objOffsets r k

/-! ## Single-step lemmas for the scanner -/

theorem processChar_inString_escape {J : Type} (parse : List Char → Option J)
    (st : ScanState J) (c : Char) (h : st.in_string = true) (he : st.escape_next = true) :
    processChar parse st c =
      { st with accumulated_content := st.accumulated_content ++ [c], escape_next := false } := by
  simp [processChar, h, he]

theorem processChar_inString_backslash {J : Type} (parse : List Char → Option J)
    (st : ScanState J) (h : st.in_string = true) (he : st.escape_next = false) :
    processChar parse st '\\' =
      { st with accumulated_content := st.accumulated_content ++ ['\\'], escape_next := true } := by
  simp [processChar, h, he]

theorem processChar_inString_quote {J : Type} (parse : List Char → Option J)
    (st : ScanState J) (h : st.in_string = true) (he : st.escape_next = false) :
    processChar parse st '"' =
      { st with accumulated_content := st.accumulated_content ++ ['"'], in_string := false } := by
  simp [processChar, h, he]

theorem processChar_inString_other {J : Type} (parse : List Char → Option J)
    (st : ScanState J) (c : Char) (h : st.in_string = true) (he : st.escape_next = false)
    (h1 : c ≠ '\\') (h2 : c ≠ '"') :
    processChar parse st c = { st with accumulated_content := st.accumulated_content ++ [c] } := by
  simp [processChar, h, he, h1, h2]

/-- Any character processed inside a string literal leaves the structural
fields (`bracket_count`, `object_start`, `emitted`) untouched. -/
theorem processChar_inString_structural {J : Type} (parse : List Char → Option J)
    (st : ScanState J) (c : Char) (h : st.in_string = true) :
    (processChar parse st c).bracket_count = st.bracket_count ∧
      (processChar parse st c).object_start = st.object_start ∧
      (processChar parse st c).emitted = st.emitted ∧
      (processChar parse st c).accumulated_content = st.accumulated_content ++ [c] := by
  simp only [processChar, h, if_true]
  split <;> [skip; split] <;> [skip; skip; split] <;> simp

theorem processChar_quote_open {J : Type} (parse : List Char → Option J)
    (st : ScanState J) (h : st.in_string = false) :
    processChar parse st '"' =
      { st with accumulated_content := st.accumulated_content ++ ['"'], in_string := true } := by
  simp [processChar, h]

theorem processChar_open_brace {J : Type} (parse : List Char → Option J)
    (st : ScanState J) (h : st.in_string = false) :
    processChar parse st '{' =
      { st with accumulated_content := st.accumulated_content ++ ['{']
                object_start :=
                  if st.bracket_count = 0 then (st.accumulated_content.length : Int)
                  else st.object_start
                bracket_count := st.bracket_count + 1 } := by
  simp [processChar, h]

theorem processChar_close_brace_skip {J : Type} (parse : List Char → Option J)
    (st : ScanState J) (h : st.in_string = false)
    (hg : ¬(st.bracket_count - 1 = 0 ∧ st.object_start ≠ -1)) :
    processChar parse st '}' =
      { st with accumulated_content := st.accumulated_content ++ ['}']
                bracket_count := st.bracket_count - 1 } := by
  rw [processChar]
  simp only [h, Bool.false_eq_true, if_false, if_neg (by decide : ¬('}' = '"')),
    if_neg (by decide : ¬('}' = '{')), if_pos rfl, if_neg hg, if_true]

theorem processChar_close_brace_try {J : Type} (parse : List Char → Option J)
    (st : ScanState J) (h : st.in_string = false)
    (hb : st.bracket_count - 1 = 0) (ho : st.object_start ≠ -1) :
    processChar parse st '}' =
      match parse ((st.accumulated_content ++ ['}']).drop st.object_start.toNat) with
      | some obj =>
          { st with accumulated_content := st.accumulated_content ++ ['}']
                    bracket_count := st.bracket_count - 1
                    emitted := st.emitted ++ [obj] }
      | Option.none =>
          { st with accumulated_content := st.accumulated_content ++ ['}']
                    bracket_count := st.bracket_count - 1 } := by
  simp [processChar, h, hb, ho]

/-- A character that is neither a quote nor a brace, processed outside a
string literal, only accumulates. -/
theorem processChar_neutral {J : Type} (parse : List Char → Option J)
    (st : ScanState J) (c : Char) (h : st.in_string = false)
    (h1 : c ≠ '"') (h2 : c ≠ '{') (h3 : c ≠ '}') :
    processChar parse st c = { st with accumulated_content := st.accumulated_content ++ [c] } := by
  simp [processChar, h, h1, h2, h3]

theorem scanList_nil {J : Type} (parse : List Char → Option J) (st : ScanState J) :
    scanList parse st [] = st := rfl

theorem scanList_cons {J : Type} (parse : List Char → Option J) (st : ScanState J)
    (c : Char) (l : List Char) :
    scanList parse st (c :: l) = scanList parse (processChar parse st c) l := rfl

theorem scanList_append {J : Type} (parse : List Char → Option J) (st : ScanState J)
    (a b : List Char) :
    scanList parse st (a ++ b) = scanList parse (scanList parse st a) b :=
  List.foldl_append ..

theorem scanList_singleton {J : Type} (parse : List Char → Option J) (st : ScanState J)
    (c : Char) : scanList parse st [c] = processChar parse st c := rfl

/-- Chunk boundaries are invisible to the scanner: scanning the chunks one
after another equals scanning the concatenated stream. -/
theorem scanChunks_eq_scanList_flatten {J : Type} (parse : List Char → Option J)
    (chunks : List (List Char)) :
    scanChunks parse chunks = scanList parse initState chunks.flatten := by
  suffices h : ∀ (st : ScanState J) (cs : List (List Char)),
      cs.foldl (scanList parse) st = scanList parse st cs.flatten by
    exact h initState chunks
  intro st cs
  induction cs generalizing st with
  | nil => rfl
  | cons a r ih => simp [List.foldl_cons, ih, scanList_append]

/-! ## Dictionary lemmas -/

theorem lookupKey_setKey_same (o : Obj) (k : String) (v : PyVal) :
    lookupKey (setKey o k v) k = some v := by
  induction o with
  | nil => simp [setKey, lookupKey]
  | cons kv r ih =>
      obtain ⟨k', v'⟩ := kv
      by_cases h : k' = k
      · simp [setKey, lookupKey, h]
      · simp [setKey, lookupKey, h, ih]

theorem lookupKey_setKey_other (o : Obj) (k : String) (v : PyVal) (k' : String)
    (h : k' ≠ k) : lookupKey (setKey o k v) k' = lookupKey o k' := by
  induction o with
  | nil => simp [setKey, lookupKey, Ne.symm h]
  | cons kv r ih =>
      obtain ⟨k₀, v₀⟩ := kv
      by_cases h0 : k₀ = k
      · subst h0
        simp [setKey, lookupKey, Ne.symm h]
      · by_cases h1 : k₀ = k'
        · subst h1
          simp [setKey, lookupKey, h0]
        · simp [setKey, lookupKey, h0, h1, ih]

/-- The image step never touches keys outside its two update sets. -/
theorem lookupKey_imageStep_other (search : PyVal → Except Unit ImageResult) (obj : Obj)
    (k : String) (h1 : k ≠ "imageUrl") (h2 : k ≠ "width") (h3 : k ≠ "height")
    (h4 : k ≠ "type") (h5 : k ≠ "content") (h6 : k ≠ "textColor") :
    lookupKey (imageStep search obj) k = lookupKey obj k := by
  unfold imageStep
  split
  · cases hres : search (dictGet obj "search") with
    | ok d =>
        simp only [hres]
        rw [lookupKey_setKey_other _ _ _ _ h3, lookupKey_setKey_other _ _ _ _ h2,
          lookupKey_setKey_other _ _ _ _ h1]
    | error e =>
        simp only [hres]
        rw [lookupKey_setKey_other _ _ _ _ h6, lookupKey_setKey_other _ _ _ _ h5,
          lookupKey_setKey_other _ _ _ _ h4]
  · rfl

/-- On image-search success only `imageUrl`, `width`, `height` can change. -/
theorem lookupKey_imageStep_ok_other (search : PyVal → Except Unit ImageResult) (obj : Obj)
    (d : ImageResult) (k : String) (hok : search (dictGet obj "search") = .ok d)
    (h1 : k ≠ "imageUrl") (h2 : k ≠ "width") (h3 : k ≠ "height") :
    lookupKey (imageStep search obj) k = lookupKey obj k := by
  unfold imageStep
  split
  · simp only [hok]
    rw [lookupKey_setKey_other _ _ _ _ h3, lookupKey_setKey_other _ _ _ _ h2,
      lookupKey_setKey_other _ _ _ _ h1]
  · rfl

/-- On image-search failure only `type`, `content`, `textColor` can change. -/
theorem lookupKey_imageStep_err_other (search : PyVal → Except Unit ImageResult) (obj : Obj)
    (k : String) (herr : search (dictGet obj "search") = .error ())
    (h4 : k ≠ "type") (h5 : k ≠ "content") (h6 : k ≠ "textColor") :
    lookupKey (imageStep search obj) k = lookupKey obj k := by
  unfold imageStep
  split
  · simp only [herr]
    rw [lookupKey_setKey_other _ _ _ _ h6, lookupKey_setKey_other _ _ _ _ h5,
      lookupKey_setKey_other _ _ _ _ h4]
  · rfl

/-- The TTS step never touches a key other than `audioDataUrl`. -/
theorem lookupKey_ttsStep_other (synthesize : PyVal → Except Unit String) (voice : Bool)
    (obj : Obj) (k : String) (h : k ≠ "audioDataUrl") :
    lookupKey (ttsStep synthesize voice obj) k = lookupKey obj k := by
  simp only [ttsStep]
  split
  · cases hres : synthesize (dictGet obj "speakAloud") with
    | ok b64 => simp only [hres]; rw [lookupKey_setKey_other _ _ _ _ h]
    | error e => simp only [hres]; rw [lookupKey_setKey_other _ _ _ _ h]
  · rfl

/-! ## Accumulator invariant -/

theorem processChar_acc {J : Type} (parse : List Char → Option J) (st : ScanState J)
    (c : Char) : (processChar parse st c).accumulated_content = st.accumulated_content ++ [c] := by
  unfold processChar
  dsimp only
  split_ifs <;> try rfl
  split <;> rfl

/-- Scanning appends exactly the scanned characters to the accumulator. -/
theorem scanList_acc {J : Type} (parse : List Char → Option J) (st : ScanState J)
    (l : List Char) :
    (scanList parse st l).accumulated_content = st.accumulated_content ++ l := by
  induction l generalizing st with
  | nil => simp [scanList_nil]
  | cons c r ih => rw [scanList_cons, ih, processChar_acc]; simp

/-! ## Claim theorems: scanner error handling and string-literal immunity -/

/-- C2: for every input stream and every prefix of it, while the scanner is
inside a string literal a `{` or `}` is never interpreted structurally
(`bracket_count`, `object_start` and the emission log are unchanged), and a
`"` arriving while an escape is pending (`escape_next`, i.e. an unconsumed
`\`) does not clear `in_string`. -/
theorem inString_braces_not_structural {J : Type} (parse : List Char → Option J)
    (input p : List Char) (c : Char) (q : List Char) (_hsplit : input = p ++ c :: q)
    (hin : (scanList parse initState p).in_string = true) :
    ((c = '{' ∨ c = '}') →
      (scanList parse initState (p ++ [c])).bracket_count =
          (scanList parse initState p).bracket_count ∧
        (scanList parse initState (p ++ [c])).object_start =
          (scanList parse initState p).object_start ∧
        (scanList parse initState (p ++ [c])).emitted =
          (scanList parse initState p).emitted) ∧
      ((scanList parse initState p).escape_next = true → c = '"' →
        (scanList parse initState (p ++ [c])).in_string = true) := by
  rw [scanList_append, scanList_singleton]
  constructor
  · intro _
    obtain ⟨a, b, c', _⟩ := processChar_inString_structural parse _ c hin
    exact ⟨a, b, c'⟩
  · intro hesc hc
    rw [processChar_inString_escape parse _ c hin hesc]
    exact hin

theorem inString_braces_not_structural_witness :
    ((Tutor.scanList (fun _ => (Option.none : Option Unit)) initState ['{', '"']).in_string
        = true) ∧
      ((scanList (fun _ => (Option.none : Option Unit)) initState
            (['{', '"'] ++ ['{'])).bracket_count =
        (scanList (fun _ => (Option.none : Option Unit)) initState ['{', '"']).bracket_count ∧
      (scanList (fun _ => (Option.none : Option Unit)) initState
            (['{', '"'] ++ ['{'])).object_start =
        (scanList (fun _ => (Option.none : Option Unit)) initState ['{', '"']).object_start ∧
      (scanList (fun _ => (Option.none : Option Unit)) initState
            (['{', '"'] ++ ['{'])).emitted =
        (scanList (fun _ => (Option.none : Option Unit)) initState ['{', '"']).emitted) :=
  ⟨by decide,
    (inString_braces_not_structural (fun _ => (Option.none : Option Unit))
        (['{', '"'] ++ '{' :: []) ['{', '"'] '{' [] rfl (by decide)).1 (Or.inl rfl)⟩

/-- C6: when a closing brace (outside a string) brings `bracket_count` to 0
with a recorded start offset but the candidate slice fails to parse
(`json.JSONDecodeError`), the attempt is silently discarded: nothing is
emitted, the state is left consistent, and scanning continues with the
following characters (`except json.JSONDecodeError: pass`, lines 426-427;
in this total model "no exception propagates" is the fact that the scan of
the remaining characters proceeds from the post-`}` state). -/
theorem parse_failure_silently_discarded {J : Type} (parse : List Char → Option J)
    (p q : List Char)
    (hin : (scanList parse initState p).in_string = false)
    (hb : (scanList parse initState p).bracket_count - 1 = 0)
    (ho : (scanList parse initState p).object_start ≠ -1)
    (hfail : parse ((p ++ ['}']).drop (scanList parse initState p).object_start.toNat) =
      Option.none) :
    (scanList parse initState (p ++ ['}'])).emitted = (scanList parse initState p).emitted ∧
      (scanList parse initState (p ++ ['}'])).bracket_count = 0 ∧
      (scanList parse initState (p ++ ['}'])).object_start =
        (scanList parse initState p).object_start ∧
      (scanList parse initState (p ++ ['}'])).in_string = false ∧
      scanList parse initState (p ++ '}' :: q) =
        scanList parse (scanList parse initState (p ++ ['}'])) q := by
  have hacc : (scanList parse initState p).accumulated_content = p := by
    rw [scanList_acc]; rfl
  have h1 : scanList parse initState (p ++ ['}']) =
      processChar parse (scanList parse initState p) '}' := by
    rw [scanList_append, scanList_singleton]
  have h2 : processChar parse (scanList parse initState p) '}' =
      { scanList parse initState p with
          accumulated_content := (scanList parse initState p).accumulated_content ++ ['}']
          bracket_count := (scanList parse initState p).bracket_count - 1 } := by
    rw [processChar_close_brace_try parse _ hin hb ho, hacc, hfail]
  refine ⟨?_, ?_, ?_, ?_, ?_⟩
  · rw [h1, h2]
  · rw [h1, h2]; exact hb
  · rw [h1, h2]
  · rw [h1, h2]; exact hin
  · have : p ++ '}' :: q = (p ++ ['}']) ++ q := by simp
    rw [this, scanList_append]

theorem parse_failure_silently_discarded_witness :
    ((Tutor.scanList (fun _ => (Option.none : Option Unit)) initState ['{', 'x']).in_string
        = false) ∧
      ((scanList (fun _ => (Option.none : Option Unit)) initState ['{', 'x']).bracket_count - 1
        = 0) ∧
      ((scanList (fun _ => (Option.none : Option Unit)) initState ['{', 'x']).object_start
        ≠ -1) ∧
      ((scanList (fun _ => (Option.none : Option Unit)) initState
          (['{', 'x'] ++ ['}'])).emitted =
        (scanList (fun _ => (Option.none : Option Unit)) initState ['{', 'x']).emitted) :=
  ⟨by decide, by decide, by decide,
    (parse_failure_silently_discarded (fun _ => (Option.none : Option Unit)) ['{', 'x'] []
        (by decide) (by decide) (by decide) rfl).1⟩

/-- C9: when an exception not caught by the per-object handlers reaches the
generator's outer `try` (modelled as the producer failing after `chunks`
with message `msg`), exactly one terminal error event is emitted, it is the
last event, the completion sentinel never fires, and everything before the
error is an ordinary data event from the scan done so far (no resumption:
the event list is exactly the pre-exception data events plus the single
error, lines 431-433). -/
theorem uncaught_exception_single_error_event (parse : List Char → Option Obj)
    (orc : Oracles) (chunks : List (List Char)) (msg : String) :
    event_generator parse orc chunks (some msg) =
        ((scanChunks parse chunks).emitted.map fun o =>
          SseEvent.data (enrichObject orc o)) ++ [SseEvent.err msg] ∧
      (event_generator parse orc chunks (some msg)).getLast? = some (SseEvent.err msg) ∧
      (event_generator parse orc chunks (some msg)).count (SseEvent.err msg) = 1 ∧
      SseEvent.done ∉ event_generator parse orc chunks (some msg) ∧
      ∀ e ∈ (event_generator parse orc chunks (some msg)).dropLast, ∃ o, e = SseEvent.data o := by
  refine ⟨rfl, ?_, ?_, ?_, ?_⟩
  · rw [event_generator]
    exact List.getLast?_concat _
  · rw [event_generator, List.count_append]
    have h0 : ((scanChunks parse chunks).emitted.map fun o =>
        SseEvent.data (enrichObject orc o)).count (SseEvent.err msg) = 0 := by
      rw [List.count_eq_zero]
      intro hmem
      obtain ⟨o, _, habs⟩ := List.mem_map.mp hmem
      exact SseEvent.noConfusion habs
    rw [h0]
    simp
  · rw [event_generator]
    intro hmem
    rcases List.mem_append.mp hmem with h | h
    · obtain ⟨o, _, habs⟩ := List.mem_map.mp h
      exact SseEvent.noConfusion habs
    · simp at h
  · rw [event_generator, List.dropLast_concat]
    intro e he
    obtain ⟨o, _, rfl⟩ := List.mem_map.mp he
    exact ⟨_, rfl⟩

/-! ## Claim theorems: enrichment -/

/-- C4 (amended): on image-search success the enrichment sets `imageUrl` to
the result URL, sets `width` to the object's own width when that width is
an `int` instance and to the default 350 otherwise, and sets `height` to
the **truncation toward zero** (Python `int()`, line 402) — not the
rounding — of `that_width * (result.height / result.width)`.  The arithmetic
is modelled exactly over `ℚ`; Python evaluates the same expression in IEEE
floats, which agrees on these magnitudes' integer part in the claim's
scenarios. -/
theorem image_success_sets_url_width_height (search : PyVal → Except Unit ImageResult)
    (obj : Obj) (d : ImageResult)
    (htype : dictGet obj "type" = PyVal.str "image")
    (hsearch : truthy (dictGet obj "search") = true)
    (hok : search (dictGet obj "search") = .ok d)
    (hw : 0 < d.width) :
    lookupKey (imageStep search obj) "imageUrl" = some (PyVal.str d.imageUrl) ∧
      lookupKey (imageStep search obj) "width" =
        some (if pyIsInstInt (dictGet obj "width") = true then dictGet obj "width"
          else PyVal.int 350) ∧
      lookupKey (imageStep search obj) "height" =
        some (PyVal.int (pyTrunc
          ((pyNumVal (if pyIsInstInt (dictGet obj "width") = true then dictGet obj "width"
              else PyVal.int 350) : ℚ) * ((d.height : ℚ) / (d.width : ℚ))))) := by
  have hg : dictGet obj "type" = PyVal.str "image" ∧ truthy (dictGet obj "search") = true :=
    ⟨htype, hsearch⟩
  simp only [imageStep, if_pos hg, hok, if_pos hw]
  refine ⟨?_, ?_, ?_⟩
  · rw [lookupKey_setKey_other _ _ _ _ (by decide), lookupKey_setKey_other _ _ _ _ (by decide),
      lookupKey_setKey_same]
  · rw [lookupKey_setKey_other _ _ _ _ (by decide), lookupKey_setKey_same]
  · rw [lookupKey_setKey_same]

theorem image_success_sets_url_width_height_witness :
    (dictGet [("type", PyVal.str "image"), ("search", PyVal.str "cat")] "type"
        = PyVal.str "image") ∧
      (truthy (dictGet [("type", PyVal.str "image"), ("search", PyVal.str "cat")] "search")
        = true) ∧
      ((0 : Int) < 3) ∧
      lookupKey (imageStep (fun _ => Except.ok (ImageResult.mk "u" 3 2))
          [("type", PyVal.str "image"), ("search", PyVal.str "cat")]) "imageUrl" =
        some (PyVal.str "u") :=
  ⟨by decide, by decide, by decide,
    (image_success_sets_url_width_height (fun _ => Except.ok (ImageResult.mk "u" 3 2))
        [("type", PyVal.str "image"), ("search", PyVal.str "cat")] (ImageResult.mk "u" 3 2)
        (by decide) (by decide) rfl (by decide)).1⟩

/-- C4, counterexample to the claim as stated: for a result of width 200 and
height 1 and the default requested width 350, the code stores
`int(350 * (1/200)) = 1` as `height` (line 402), while the claim's
`round(350 * (1/200)) = round(1.75) = 2`. -/
theorem image_height_not_rounded :
    lookupKey (imageStep (fun _ => Except.ok (ImageResult.mk "u" 200 1))
        [("type", PyVal.str "image"), ("search", PyVal.str "cat")]) "height" =
      some (PyVal.int 1) ∧
      round ((350 : ℚ) * ((1 : ℚ) / (200 : ℚ))) = (2 : Int) ∧ (1 : Int) ≠ 2 := by
  have e1 : (350 : ℚ) * ((1 : ℚ) / (200 : ℚ)) = 7 / 4 := by norm_num
  refine ⟨?_, ?_, by decide⟩
  · have ht : pyTrunc ((350 : ℚ) * ((1 : ℚ) / (200 : ℚ))) = 1 := by
      rw [pyTrunc, if_pos (by rw [e1]; norm_num), e1]
      norm_num [Int.floor_eq_iff]
    simp only [imageStep, dictGet, lookupKey, truthy, pyIsInstInt, pyNumVal, setKey]
    simp
    convert ht using 2
    norm_num
  · rw [e1, round_eq]
    norm_num [Int.floor_eq_iff]

/-- C5: a parsed object of type `image` with a non-empty search string whose
image search fails (for any reason the collaborator can fail) is mutated
into a text placeholder — `type` becomes `"text"`, `content` a visible
error message naming the failed search term, `textColor` the error color
`#ef4444` — and is still forwarded as a data event of the stream, never
dropped (lines 404-410, 425). -/
theorem image_failure_forwarded_as_text_placeholder (orc : Oracles) (obj : Obj) (s : String)
    (parse : List Char → Option Obj) (chunks : List (List Char))
    (htype : dictGet obj "type" = PyVal.str "image")
    (hsearch : dictGet obj "search" = PyVal.str s) (hne : s ≠ "")
    (herr : orc.search_for_image_on_unsplash (dictGet obj "search") = .error ())
    (hmem : obj ∈ (scanChunks parse chunks).emitted) :
    lookupKey (enrichObject orc obj) "type" = some (PyVal.str "text") ∧
      lookupKey (enrichObject orc obj) "content" =
        some (PyVal.str ("**Error:** Could not find image for '" ++ s ++ "'")) ∧
      lookupKey (enrichObject orc obj) "textColor" = some (PyVal.str "#ef4444") ∧
      SseEvent.data (enrichObject orc obj) ∈ event_generator parse orc chunks Option.none := by
  have hg2 : truthy (dictGet obj "search") = true := by
    rw [hsearch]
    simpa [truthy] using hne
  have herr' : orc.search_for_image_on_unsplash (PyVal.str s) = Except.error () := by
    rw [← hsearch]
    exact herr
  have himg : imageStep orc.search_for_image_on_unsplash obj =
      setKey (setKey (setKey obj "type" (PyVal.str "text")) "content"
          (PyVal.str ("**Error:** Could not find image for '" ++ s ++ "'")))
        "textColor" (PyVal.str "#ef4444") := by
    rw [imageStep, if_pos ⟨htype, hg2⟩, hsearch, herr']
    simp [pyStr]
  have hfields : ∀ k : String, k ≠ "audioDataUrl" →
      lookupKey (enrichObject orc obj) k =
        lookupKey (imageStep orc.search_for_image_on_unsplash obj) k := by
    intro k hk
    rw [enrichObject, lookupKey_ttsStep_other _ _ _ _ hk]
  refine ⟨?_, ?_, ?_, ?_⟩
  · rw [hfields "type" (by decide), himg,
      lookupKey_setKey_other _ _ _ _ (by decide), lookupKey_setKey_other _ _ _ _ (by decide),
      lookupKey_setKey_same]
  · rw [hfields "content" (by decide), himg, lookupKey_setKey_other _ _ _ _ (by decide),
      lookupKey_setKey_same]
  · rw [hfields "textColor" (by decide), himg, lookupKey_setKey_same]
  · rw [event_generator]
    exact List.mem_append_left _ (List.mem_map_of_mem _ hmem)

theorem image_failure_forwarded_as_text_placeholder_witness :
    lookupKey (enrichObject
        (Oracles.mk (fun _ => Except.error ()) (fun _ => Except.error ()) false)
        [("type", PyVal.str "image"), ("search", PyVal.str "cat")]) "type" =
      some (PyVal.str "text") :=
  (image_failure_forwarded_as_text_placeholder
      (Oracles.mk (fun _ => Except.error ()) (fun _ => Except.error ()) false)
      [("type", PyVal.str "image"), ("search", PyVal.str "cat")] "cat"
      (fun l => if l = ['{', '}'] then
        some [("type", PyVal.str "image"), ("search", PyVal.str "cat")] else Option.none)
      [['{', '}']] (by decide) (by decide) (by decide) rfl (by decide)).1

/-- C8: for a parsed object with a non-empty `speakAloud` string and an
available voice, a failing synthesis stores an explicit Python `None` in
`audioDataUrl` (the field is present, with value `None`, rather than
omitted, line 423), and the object is still forwarded as a data event. -/
theorem tts_failure_sets_explicit_null (orc : Oracles) (obj : Obj) (t : String)
    (parse : List Char → Option Obj) (chunks : List (List Char))
    (hsp : dictGet obj "speakAloud" = PyVal.str t) (hne : t ≠ "")
    (hvoice : orc.voice = true)
    (hfail : orc.synthesize_wav (PyVal.str t) = .error ())
    (hmem : obj ∈ (scanChunks parse chunks).emitted) :
    lookupKey (enrichObject orc obj) "audioDataUrl" = some PyVal.none ∧
      SseEvent.data (enrichObject orc obj) ∈ event_generator parse orc chunks Option.none := by
  have hsp' : dictGet (imageStep orc.search_for_image_on_unsplash obj) "speakAloud"
      = PyVal.str t := by
    rw [dictGet, lookupKey_imageStep_other _ _ _ (by decide) (by decide) (by decide)
      (by decide) (by decide) (by decide)]
    rw [dictGet] at hsp
    exact hsp
  constructor
  · rw [enrichObject]
    simp only [ttsStep, hsp']
    rw [if_pos ⟨by simpa [truthy] using hne, hvoice⟩, hfail]
    exact lookupKey_setKey_same _ _ _
  · rw [event_generator]
    exact List.mem_append_left _ (List.mem_map_of_mem _ hmem)

theorem tts_failure_sets_explicit_null_witness :
    lookupKey (enrichObject
        (Oracles.mk (fun _ => Except.error ()) (fun _ => Except.error ()) true)
        [("speakAloud", PyVal.str "hi")]) "audioDataUrl" = some PyVal.none :=
  (tts_failure_sets_explicit_null
      (Oracles.mk (fun _ => Except.error ()) (fun _ => Except.error ()) true)
      [("speakAloud", PyVal.str "hi")] "hi"
      (fun l => if l = ['{', '}'] then some [("speakAloud", PyVal.str "hi")] else Option.none)
      [['{', '}']] (by decide) (by decide) rfl rfl (by decide)).1

/-- C10 (frame property): enrichment mutates only the designated fields —
on image-search success only `imageUrl`, `width`, `height` (plus possibly
`audioDataUrl` from the narration step), on image-search failure only
`type`, `content`, `textColor` (plus possibly `audioDataUrl`), and in
general nothing outside those seven keys — every other field of the parsed
object (e.g. `x`, `y`, `fontSize`, `speakAloud`, and in the failure case
the original `search` string) reaches the forwarded event unchanged. -/
theorem enrichment_frame (orc : Oracles) (obj : Obj) (k : String) :
    (k ∉ (["imageUrl", "width", "height", "type", "content", "textColor",
          "audioDataUrl"] : List String) →
        lookupKey (enrichObject orc obj) k = lookupKey obj k) ∧
      (∀ d : ImageResult, orc.search_for_image_on_unsplash (dictGet obj "search") = .ok d →
        k ∉ (["imageUrl", "width", "height", "audioDataUrl"] : List String) →
        lookupKey (enrichObject orc obj) k = lookupKey obj k) ∧
      (orc.search_for_image_on_unsplash (dictGet obj "search") = .error () →
        k ∉ (["type", "content", "textColor", "audioDataUrl"] : List String) →
        lookupKey (enrichObject orc obj) k = lookupKey obj k) := by
  refine ⟨?_, ?_, ?_⟩
  · intro hk
    simp only [List.mem_cons, List.not_mem_nil, or_false, not_or] at hk
    obtain ⟨h1, h2, h3, h4, h5, h6, h7⟩ := hk
    rw [enrichObject, lookupKey_ttsStep_other _ _ _ _ h7,
      lookupKey_imageStep_other _ _ _ h1 h2 h3 h4 h5 h6]
  · intro d hok hk
    simp only [List.mem_cons, List.not_mem_nil, or_false, not_or] at hk
    obtain ⟨h1, h2, h3, h7⟩ := hk
    rw [enrichObject, lookupKey_ttsStep_other _ _ _ _ h7,
      lookupKey_imageStep_ok_other _ _ _ _ hok h1 h2 h3]
  · intro herr hk
    simp only [List.mem_cons, List.not_mem_nil, or_false, not_or] at hk
    obtain ⟨h4, h5, h6, h7⟩ := hk
    rw [enrichObject, lookupKey_ttsStep_other _ _ _ _ h7,
      lookupKey_imageStep_err_other _ _ _ herr h4 h5 h6]

theorem enrichment_frame_witness :
    lookupKey (enrichObject
        (Oracles.mk (fun _ => Except.error ()) (fun _ => Except.error ()) false)
        [("x", PyVal.int 40), ("type", PyVal.str "text")]) "x" =
      lookupKey [("x", PyVal.int 40), ("type", PyVal.str "text")] "x" :=
  (enrichment_frame
      (Oracles.mk (fun _ => Except.error ()) (fun _ => Except.error ()) false)
      [("x", PyVal.int 40), ("type", PyVal.str "text")] "x").1 (by decide)

/-! ## Inert segments

A segment of the stream is *inert* when scanning it from any state that is
outside a string literal with no pending escape (i) only extends the
accumulator, and (ii) leaves the structural fields (`bracket_count`,
`object_start`, `emitted`) unchanged at every intermediate point.  All of a
flat object's interior (everything strictly between its braces) is inert. -/

/-- The structural fields of `st'` agree with those of `st`. -/
def Unchanged {J : Type} (st st' : ScanState J) : Prop :=
  st'.bracket_count = st.bracket_count ∧ st'.object_start = st.object_start ∧
    st'.emitted = st.emitted

theorem unchanged_refl {J : Type} (st : ScanState J) : Unchanged st st := ⟨rfl, rfl, rfl⟩

theorem unchanged_trans {J : Type} {s1 s2 s3 : ScanState J}
    (h1 : Unchanged s1 s2) (h2 : Unchanged s2 s3) : Unchanged s1 s3 :=
  ⟨h2.1.trans h1.1, h2.2.1.trans h1.2.1, h2.2.2.trans h1.2.2⟩

/-- Inertness of a segment, for every clean start state. -/
def InertSeg {J : Type} (parse : List Char → Option J) (l : List Char) : Prop :=
  ∀ st : ScanState J, st.in_string = false → st.escape_next = false →
    scanList parse st l = { st with accumulated_content := st.accumulated_content ++ l } ∧
      ∀ p q, l = p ++ q → Unchanged st (scanList parse st p)

theorem inertSeg_nil {J : Type} (parse : List Char → Option J) : InertSeg parse [] := by
  intro st _ _
  refine ⟨by simp [scanList_nil], ?_⟩
  intro p q hpq
  obtain ⟨rfl, rfl⟩ := List.append_eq_nil.mp hpq.symm
  exact unchanged_refl st

theorem inertSeg_append {J : Type} (parse : List Char → Option J) (A B : List Char)
    (hA : InertSeg parse A) (hB : InertSeg parse B) : InertSeg parse (A ++ B) := by
  intro st hin hesc
  obtain ⟨hAfin, hAsplit⟩ := hA st hin hesc
  obtain ⟨hBfin, hBsplit⟩ :=
    hB { st with accumulated_content := st.accumulated_content ++ A } hin hesc
  have hUA : Unchanged st { st with accumulated_content := st.accumulated_content ++ A } :=
    ⟨rfl, rfl, rfl⟩
  constructor
  · rw [scanList_append, hAfin, hBfin]
    simp
  · intro p q hpq
    rcases List.append_eq_append_iff.mp hpq with ⟨a', ha1, ha2⟩ | ⟨c', hc1, hc2⟩
    · subst ha1
      rw [scanList_append, hAfin]
      exact unchanged_trans hUA (hBsplit a' q ha2)
    · exact hAsplit p c' hc1

theorem inertSeg_neutral {J : Type} (parse : List Char → Option J) (c : Char)
    (h1 : c ≠ '"') (h2 : c ≠ '{') (h3 : c ≠ '}') : InertSeg parse [c] := by
  intro st hin hesc
  have hstep := processChar_neutral parse st c hin h1 h2 h3
  refine ⟨by rw [scanList_singleton, hstep], ?_⟩
  intro p q hpq
  cases p with
  | nil => rw [scanList_nil]; exact unchanged_refl st
  | cons a p' =>
      simp only [List.cons_append, List.cons.injEq] at hpq
      obtain ⟨rfl, htail⟩ := hpq
      obtain ⟨rfl, rfl⟩ := List.append_eq_nil.mp htail.symm
      rw [scanList_singleton, hstep]
      exact ⟨rfl, rfl, rfl⟩

theorem inertSeg_of_forall_neutral {J : Type} (parse : List Char → Option J) (l : List Char)
    (h : ∀ c ∈ l, c ≠ '"' ∧ c ≠ '{' ∧ c ≠ '}') : InertSeg parse l := by
  induction l with
  | nil => exact inertSeg_nil parse
  | cons c r ih =>
      have hc := h c (by simp)
      have : (c :: r : List Char) = [c] ++ r := rfl
      rw [this]
      exact inertSeg_append parse [c] r
        (inertSeg_neutral parse c hc.1 hc.2.1 hc.2.2)
        (ih fun d hd => h d (by simp [hd]))

/-- `escChar` produces either a single uninterpreted character or a
two-character backslash escape. -/
theorem escCharShape (c : Char) :
    (escChar c = [c] ∧ c ≠ '"' ∧ c ≠ '\\') ∨ ∃ x, escChar c = ['\\', x] := by
  unfold escChar
  split_ifs with h1 h2 h3 h4 h5
  · exact Or.inr ⟨_, rfl⟩
  · exact Or.inr ⟨_, rfl⟩
  · exact Or.inr ⟨_, rfl⟩
  · exact Or.inr ⟨_, rfl⟩
  · exact Or.inr ⟨_, rfl⟩
  · exact Or.inl ⟨rfl, h1, h2⟩

/-- Scanning the escaped body of a string literal from inside the string:
the accumulator grows, nothing structural changes (at any intermediate
point), and the scanner is still inside the string throughout. -/
theorem scan_escList {J : Type} (parse : List Char → Option J) (l : List Char)
    (st : ScanState J) (hin : st.in_string = true) (hesc : st.escape_next = false) :
    scanList parse st (escList l) =
        { st with accumulated_content := st.accumulated_content ++ escList l } ∧
      ∀ p q, escList l = p ++ q →
        Unchanged st (scanList parse st p) ∧ (scanList parse st p).in_string = true := by
  induction l generalizing st with
  | nil =>
      refine ⟨by simp [escList, scanList_nil], ?_⟩
      intro p q hpq
      rw [show escList [] = [] from rfl] at hpq
      obtain ⟨rfl, rfl⟩ := List.append_eq_nil.mp hpq.symm
      rw [scanList_nil]
      exact ⟨unchanged_refl st, hin⟩
  | cons c l' ih =>
      obtain ⟨a0, b0, i0, e0, o0, m0⟩ := st
      replace hin : i0 = true := hin
      replace hesc : e0 = false := hesc
      subst hin
      subst hesc
      have hsplit : escList (c :: l') = escChar c ++ escList l' := by simp [escList]
      rcases escCharShape c with ⟨hc, hq, hb⟩ | ⟨x, hx⟩
      · -- single uninterpreted character
        have hstep : processChar parse ⟨a0, b0, true, false, o0, m0⟩ c =
            ⟨a0 ++ [c], b0, true, false, o0, m0⟩ :=
          processChar_inString_other parse _ c rfl rfl hb hq
        obtain ⟨ihfin, ihsplit⟩ := ih ⟨a0 ++ [c], b0, true, false, o0, m0⟩ rfl rfl
        constructor
        · rw [hsplit, hc, List.singleton_append, scanList_cons, hstep, ihfin]
          simp
        · intro p q hpq
          rw [hsplit, hc, List.singleton_append] at hpq
          cases p with
          | nil => rw [scanList_nil]; exact ⟨unchanged_refl _, rfl⟩
          | cons a p' =>
              simp only [List.cons_append, List.cons.injEq] at hpq
              obtain ⟨rfl, htail⟩ := hpq
              rw [scanList_cons, hstep]
              obtain ⟨hu, hi⟩ := ihsplit p' q htail
              exact ⟨unchanged_trans ⟨rfl, rfl, rfl⟩ hu, hi⟩
      · -- two-character backslash escape
        have hstep1 : processChar parse ⟨a0, b0, true, false, o0, m0⟩ '\\' =
            ⟨a0 ++ ['\\'], b0, true, true, o0, m0⟩ :=
          processChar_inString_backslash parse _ rfl rfl
        have hstep2 : processChar parse ⟨a0 ++ ['\\'], b0, true, true, o0, m0⟩ x =
            ⟨(a0 ++ ['\\']) ++ [x], b0, true, false, o0, m0⟩ :=
          processChar_inString_escape parse _ x rfl rfl
        obtain ⟨ihfin, ihsplit⟩ := ih ⟨(a0 ++ ['\\']) ++ [x], b0, true, false, o0, m0⟩ rfl rfl
        constructor
        · rw [hsplit, hx]
          rw [show (['\\', x] ++ escList l' : List Char) = '\\' :: x :: escList l' from rfl,
            scanList_cons, hstep1, scanList_cons, hstep2, ihfin]
          simp
        · intro p q hpq
          rw [hsplit, hx] at hpq
          cases p with
          | nil => rw [scanList_nil]; exact ⟨unchanged_refl _, rfl⟩
          | cons a p' =>
              rw [show (['\\', x] ++ escList l' : List Char) = '\\' :: x :: escList l' from rfl]
                at hpq
              simp only [List.cons_append, List.cons.injEq] at hpq
              obtain ⟨rfl, htail⟩ := hpq
              cases p' with
              | nil =>
                  rw [scanList_singleton, hstep1]
                  exact ⟨⟨rfl, rfl, rfl⟩, rfl⟩
              | cons b p'' =>
                  simp only [List.cons_append, List.cons.injEq] at htail
                  obtain ⟨rfl, htail2⟩ := htail
                  rw [scanList_cons, hstep1, scanList_cons, hstep2]
                  obtain ⟨hu, hi⟩ := ihsplit p'' q htail2
                  exact ⟨unchanged_trans ⟨rfl, rfl, rfl⟩ hu, hi⟩

/-- A whole JSON string literal is an inert segment. -/
theorem inertSeg_strLitC {J : Type} (parse : List Char → Option J) (l : List Char) :
    InertSeg parse (strLitC l) := by
  intro st hin hesc
  obtain ⟨a0, b0, i0, e0, o0, m0⟩ := st
  replace hin : i0 = false := hin
  replace hesc : e0 = false := hesc
  subst hin
  subst hesc
  have hstep1 : processChar parse ⟨a0, b0, false, false, o0, m0⟩ '"' =
      ⟨a0 ++ ['"'], b0, true, false, o0, m0⟩ :=
    processChar_quote_open parse _ rfl
  obtain ⟨hfin, hsplitS⟩ := scan_escList parse l ⟨a0 ++ ['"'], b0, true, false, o0, m0⟩ rfl rfl
  have hfin' : scanList parse ⟨a0 ++ ['"'], b0, true, false, o0, m0⟩ (escList l) =
      ⟨(a0 ++ ['"']) ++ escList l, b0, true, false, o0, m0⟩ := hfin
  have hstep2 : processChar parse ⟨(a0 ++ ['"']) ++ escList l, b0, true, false, o0, m0⟩ '"' =
      ⟨((a0 ++ ['"']) ++ escList l) ++ ['"'], b0, false, false, o0, m0⟩ :=
    processChar_inString_quote parse _ rfl rfl
  constructor
  · rw [strLitC, List.cons_append, scanList_cons, hstep1, scanList_append, hfin',
      scanList_singleton, hstep2]
    simp
  · intro p q hpq
    rw [strLitC] at hpq
    cases p with
    | nil => rw [scanList_nil]; exact unchanged_refl _
    | cons a p' =>
        simp only [List.cons_append, List.cons.injEq] at hpq
        obtain ⟨rfl, htail⟩ := hpq
        rw [scanList_cons, hstep1]
        rcases List.append_eq_append_iff.mp htail with ⟨a', ha1, ha2⟩ | ⟨c', hc1, _⟩
        · subst ha1
          rw [scanList_append, hfin']
          cases a' with
          | nil => rw [scanList_nil]; exact ⟨rfl, rfl, rfl⟩
          | cons b a'' =>
              simp only [List.cons_append, List.cons.injEq] at ha2
              obtain ⟨rfl, ha3⟩ := ha2
              obtain ⟨rfl, rfl⟩ := List.append_eq_nil.mp ha3.symm
              rw [scanList_singleton, hstep2]
              exact ⟨rfl, rfl, rfl⟩
        · obtain ⟨hu, _⟩ := hsplitS p' c' hc1
          exact unchanged_trans ⟨rfl, rfl, rfl⟩ hu

/-! ## Inertness of a flat object's interior -/

theorem digitC_chars (d : Nat) (h : d < 10) :
    digitC d ≠ '"' ∧ digitC d ≠ '{' ∧ digitC d ≠ '}' := by
  interval_cases d <;> exact (by decide)

theorem natC_chars (n : Nat) : ∀ c ∈ natC n, c ≠ '"' ∧ c ≠ '{' ∧ c ≠ '}' := by
  induction n using Nat.strong_induction_on with
  | _ n ih =>
      rw [natC]
      split_ifs with h
      · intro c hc
        simp only [List.mem_singleton] at hc
        subst hc
        exact digitC_chars n h
      · intro c hc
        rcases List.mem_append.mp hc with h1 | h1
        · exact ih (n / 10) (Nat.div_lt_self (by omega) (by omega)) c h1
        · simp only [List.mem_singleton] at h1
          subst h1
          exact digitC_chars (n % 10) (Nat.mod_lt _ (by omega))

theorem intC_chars (n : Int) : ∀ c ∈ intC n, c ≠ '"' ∧ c ≠ '{' ∧ c ≠ '}' := by
  intro c hc
  rw [intC] at hc
  split_ifs at hc with h
  · rcases List.mem_cons.mp hc with rfl | h1
    · exact (by decide)
    · exact natC_chars _ c h1
  · exact natC_chars _ c hc

theorem inertSeg_valC {J : Type} (parse : List Char → Option J) (v : JVal) :
    InertSeg parse (valC v) := by
  cases v with
  | str s => exact inertSeg_strLitC parse s.toList
  | int n => exact inertSeg_of_forall_neutral parse _ (intC_chars n)
  | bool b => cases b <;> exact inertSeg_of_forall_neutral parse _ (by decide)
  | null => exact inertSeg_of_forall_neutral parse _ (by decide)

theorem inertSeg_memberC {J : Type} (parse : List Char → Option J) (k : String) (v : JVal) :
    InertSeg parse (memberC k v) := by
  have h : memberC k v = strLitC k.toList ++ ([':'] ++ valC v) := rfl
  rw [h]
  exact inertSeg_append parse _ _ (inertSeg_strLitC parse k.toList)
    (inertSeg_append parse _ _
      (inertSeg_neutral parse ':' (by decide) (by decide) (by decide))
      (inertSeg_valC parse v))

/-- The whole interior of a flat object (its comma-separated members) is an
inert segment: it contains no structural braces outside string literals. -/
theorem inertSeg_membersC {J : Type} (parse : List Char → Option J) (o : JObj) :
    InertSeg parse (membersC o) := by
  induction o with
  | nil => exact inertSeg_nil parse
  | cons kv r ih =>
      obtain ⟨k, v⟩ := kv
      cases r with
      | nil => exact inertSeg_memberC parse k v
      | cons kv' r' =>
          have h : membersC ((k, v) :: kv' :: r') =
              memberC k v ++ ([','] ++ membersC (kv' :: r')) := rfl
          rw [h]
          exact inertSeg_append parse _ _ (inertSeg_memberC parse k v)
            (inertSeg_append parse _ _
              (inertSeg_neutral parse ',' (by decide) (by decide) (by decide)) ih)

/-! ## Scanning one serialized flat object -/

/-- Scanning one serialized flat object from a clean state (depth 0, not in
a string, no pending escape): the opening brace records the object's start
offset, the whole object leaves the scanner clean again at depth 0 with the
`json.loads` result (if any) appended to the emission log; and at every
strict interior point the depth is exactly 1, the start offset is the
object's own, and nothing has been emitted yet. -/
theorem scanObjC {J : Type} (parse : List Char → Option J) (o : JObj) (st : ScanState J)
    (hb : st.bracket_count = 0) (hin : st.in_string = false) (hesc : st.escape_next = false) :
    scanList parse st (serializeObjC o) =
        { st with accumulated_content := st.accumulated_content ++ serializeObjC o
                  object_start := (st.accumulated_content.length : Int)
                  emitted := st.emitted ++ emitOf parse o } ∧
      ∀ p q, serializeObjC o = p ++ q → p ≠ [] → q ≠ [] →
        (scanList parse st p).bracket_count = 1 ∧
          (scanList parse st p).object_start = (st.accumulated_content.length : Int) ∧
          (scanList parse st p).emitted = st.emitted := by
  obtain ⟨a0, b0, i0, e0, o0, m0⟩ := st
  replace hb : b0 = 0 := hb
  replace hin : i0 = false := hin
  replace hesc : e0 = false := hesc
  subst hb
  subst hin
  subst hesc
  have hbrace : processChar parse ⟨a0, 0, false, false, o0, m0⟩ '{' =
      ⟨a0 ++ ['{'], 1, false, false, (a0.length : Int), m0⟩ := by
    rw [processChar_open_brace parse _ rfl]
    norm_num
  obtain ⟨hIfin, hIsplit⟩ :=
    inertSeg_membersC parse o ⟨a0 ++ ['{'], 1, false, false, (a0.length : Int), m0⟩ rfl rfl
  have hIfin' : scanList parse ⟨a0 ++ ['{'], 1, false, false, (a0.length : Int), m0⟩
      (membersC o) =
      ⟨(a0 ++ ['{']) ++ membersC o, 1, false, false, (a0.length : Int), m0⟩ := hIfin
  have hslice : (((a0 ++ ['{']) ++ membersC o) ++ ['}']).drop
      ((a0.length : Int)).toNat = serializeObjC o := by
    rw [Int.toNat_natCast]
    have : ((a0 ++ ['{']) ++ membersC o) ++ ['}'] = a0 ++ serializeObjC o := by
      simp [serializeObjC]
    rw [this, List.drop_left]
  have hclose : processChar parse
      ⟨(a0 ++ ['{']) ++ membersC o, 1, false, false, (a0.length : Int), m0⟩ '}' =
      match parse (serializeObjC o) with
      | some obj => ⟨a0 ++ serializeObjC o, 0, false, false, (a0.length : Int), m0 ++ [obj]⟩
      | Option.none => ⟨a0 ++ serializeObjC o, 0, false, false, (a0.length : Int), m0⟩ := by
    rw [processChar_close_brace_try parse _ rfl (by norm_num) (by dsimp only; omega)]
    rw [show (⟨(a0 ++ ['{']) ++ membersC o, 1, false, false, (a0.length : Int), m0⟩ :
        ScanState J).accumulated_content = (a0 ++ ['{']) ++ membersC o from rfl, hslice]
    generalize parse (serializeObjC o) = res
    cases res with
    | some j => simp [serializeObjC]
    | none => simp [serializeObjC]
  constructor
  · rw [show serializeObjC o = '{' :: (membersC o ++ ['}']) from rfl, scanList_cons, hbrace,
      scanList_append, hIfin', scanList_singleton, hclose, emitOf]
    generalize parse (serializeObjC o) = res
    cases res with
    | some j => simp [serializeObjC]
    | none => simp [serializeObjC]
  · intro p q hpq hp0 hq0
    cases p with
    | nil => exact absurd rfl hp0
    | cons a p₁ =>
        rw [show serializeObjC o = '{' :: (membersC o ++ ['}']) from rfl] at hpq
        simp only [List.cons_append, List.cons.injEq] at hpq
        obtain ⟨rfl, htail⟩ := hpq
        rw [scanList_cons, hbrace]
        rcases List.append_eq_append_iff.mp htail with ⟨a', ha1, ha2⟩ | ⟨c', hc1, _⟩
        · subst ha1
          cases a' with
          | nil =>
              rw [List.append_nil, hIfin']
              exact ⟨rfl, rfl, rfl⟩
          | cons b a'' =>
              simp only [List.cons_append, List.cons.injEq] at ha2
              obtain ⟨rfl, ha3⟩ := ha2
              obtain ⟨rfl, rfl⟩ := List.append_eq_nil.mp ha3.symm
              exact absurd rfl hq0
        · exact hIsplit p₁ c' hc1

/-! ## Positions of objects inside a canonical array body -/

/-- Offset, inside a canonical array body, of the opening brace of object
`k` (each earlier object contributes its serialized length plus one comma).
At `k = objs.length` this is one past the body's end. -/
def bOff : List JObj → Nat → Nat
  | _, 0 => 0
  | [], _ + 1 => 0
  | o :: r, k + 1 => (serializeObjC o).length + 1 + bOff r k

theorem bOff_zero (objs : List JObj) : bOff objs 0 = 0 := by cases objs <;> rfl

theorem bOff_cons_succ (o : JObj) (r : List JObj) (k : Nat) :
    bOff (o :: r) (k + 1) = (serializeObjC o).length + 1 + bOff r k := rfl

theorem bOff_succ (objs : List JObj) (k : Nat) (hk : k < objs.length) :
    bOff objs (k + 1) = bOff objs k + (serializeObjC (objs.getD k [])).length + 1 := by
  induction objs generalizing k with
  | nil => simp at hk
  | cons o r ih =>
      cases k with
      | zero => simp [bOff_cons_succ, bOff_zero]
      | succ k' =>
          simp only [List.length_cons, Nat.add_lt_add_iff_right] at hk
          rw [bOff_cons_succ, bOff_cons_succ, List.getD_cons_succ, ih k' hk]
          omega

theorem bOff_mono (objs : List JObj) {k k' : Nat} (h : k ≤ k') :
    bOff objs k ≤ bOff objs k' := by
  induction objs generalizing k k' with
  | nil =>
      cases k <;> cases k' <;> simp [bOff]
  | cons o r ih =>
      cases k with
      | zero =>
          rw [bOff_zero]
          exact Nat.zero_le _
      | succ k1 =>
          cases k' with
          | zero => omega
          | succ k2 =>
              rw [bOff_cons_succ, bOff_cons_succ]
              have := @ih k1 k2 (by omega)
              omega

theorem bodyC_length_eq (objs : List JObj) (h : objs ≠ []) :
    (bodyC objs).length + 1 = bOff objs objs.length := by
  induction objs with
  | nil => exact absurd rfl h
  | cons o r ih =>
      cases r with
      | nil => simp [bodyC, bOff_cons_succ, bOff]
      | cons r0 r' =>
          have := ih (by simp)
          rw [show bodyC (o :: r0 :: r') = serializeObjC o ++ ',' :: bodyC (r0 :: r')
            from rfl]
          rw [show (o :: r0 :: r' : List JObj).length = (r0 :: r').length + 1 from rfl,
            bOff_cons_succ]
          simp only [List.length_append, List.length_cons]
          simp only [List.length_cons] at this
          omega

/-- Every position strictly inside a nonempty body (counted from 1 up to
one past the last object's closing brace) falls in exactly one object's
half-open interval of the offset sequence. -/
theorem bOff_partition (objs : List JObj) (m : Nat) (h0 : 0 < m)
    (hm : m ≤ bOff objs objs.length) :
    ∃ k, k < objs.length ∧ bOff objs k < m ∧ m ≤ bOff objs (k + 1) := by
  induction objs generalizing m with
  | nil => simp [bOff] at hm; omega
  | cons o r ih =>
      by_cases hle : m ≤ (serializeObjC o).length + 1
      · refine ⟨0, by simp, ?_, ?_⟩
        · rw [bOff_zero]; exact h0
        · rw [bOff_cons_succ, bOff_zero]; omega
      · have hm0 : bOff (o :: r) (o :: r).length =
            (serializeObjC o).length + 1 + bOff r r.length := by
          rw [show (o :: r : List JObj).length = r.length + 1 from rfl, bOff_cons_succ]
        obtain ⟨k', hk', h1', h2'⟩ :=
          ih (m - ((serializeObjC o).length + 1)) (by omega) (by omega)
        refine ⟨k' + 1, by simpa using hk', ?_, ?_⟩
        · rw [bOff_cons_succ]; omega
        · rw [bOff_cons_succ]; omega

/-- The value held by `object_start` after a whole canonical body has been
scanned, when the body began at accumulator offset `base` and the register
held `v0` before the body: the start of the last object when there is one
(never reset back to -1), the old value otherwise. -/
def bodyEndStart (v0 : Int) (objs : List JObj) (base : Nat) : Int :=
  if objs.isEmpty then v0 else ((base + bOff objs (objs.length - 1) : Nat) : Int)

/-- Scanning any left part `p` of a canonical array body from a clean state:
the depth is 1 exactly when `p` ends strictly inside an object, the start
register moves to object `k`'s offset once its `{` is consumed and keeps it
until the next object's `{` (it is never reset to -1), and consuming the
whole body leaves a clean state with all objects' parse results emitted. -/
theorem scanBodyC_split {J : Type} (parse : List Char → Option J) (objs : List JObj)
    (st : ScanState J) (hb : st.bracket_count = 0) (hin : st.in_string = false)
    (hesc : st.escape_next = false) (p q : List Char) (hpq : bodyC objs = p ++ q) :
    ((∃ k, k < objs.length ∧ bOff objs k < p.length ∧
        p.length < bOff objs k + (serializeObjC (objs.getD k [])).length) →
      (scanList parse st p).bracket_count = 1) ∧
    ((¬ ∃ k, k < objs.length ∧ bOff objs k < p.length ∧
        p.length < bOff objs k + (serializeObjC (objs.getD k [])).length) →
      (scanList parse st p).bracket_count = 0) ∧
    (p = [] → scanList parse st p = st) ∧
    (∀ k, k < objs.length → bOff objs k < p.length → p.length ≤ bOff objs (k + 1) →
      (scanList parse st p).object_start =
        ((st.accumulated_content.length + bOff objs k : Nat) : Int)) ∧
    (objs = [] → (scanList parse st p).object_start = st.object_start) ∧
    (q = [] → scanList parse st p =
      { st with accumulated_content := st.accumulated_content ++ bodyC objs
                object_start := bodyEndStart st.object_start objs st.accumulated_content.length
                emitted := st.emitted ++ (objs.map (emitOf parse)).flatten }) := by
  induction objs generalizing st p q with
  | nil =>
      rw [show bodyC [] = [] from rfl] at hpq
      obtain ⟨rfl, rfl⟩ := List.append_eq_nil.mp hpq.symm
      rw [scanList_nil]
      refine ⟨?_, ?_, ?_, ?_, ?_, ?_⟩
      · rintro ⟨k, hk, _, _⟩; simp at hk
      · intro _; exact hb
      · intro _; rfl
      · intro k hk; simp at hk
      · intro _; rfl
      · intro _
        simp [bodyEndStart, bodyC]
  | cons o rest ih =>
      obtain ⟨a0, b0, i0, e0, o0, m0⟩ := st
      replace hb : b0 = 0 := hb
      replace hin : i0 = false := hin
      replace hesc : e0 = false := hesc
      subst hb
      subst hin
      subst hesc
      obtain ⟨hOfin, hOsplit⟩ := scanObjC parse o ⟨a0, 0, false, false, o0, m0⟩ rfl rfl rfl
      have hOfin' : scanList parse ⟨a0, 0, false, false, o0, m0⟩ (serializeObjC o) =
          ⟨a0 ++ serializeObjC o, 0, false, false, (a0.length : Int),
            m0 ++ emitOf parse o⟩ := hOfin
      cases rest with
      | nil =>
          rw [show bodyC [o] = serializeObjC o from rfl] at hpq
          have hlen : (serializeObjC o).length = p.length + q.length := by
            rw [hpq]; simp
          by_cases hp0 : p = []
          · subst hp0
            rw [scanList_nil]
            refine ⟨?_, ?_, ?_, ?_, ?_, ?_⟩
            · rintro ⟨k, hk, h1, h2⟩; simp at h1
            · intro _; rfl
            · intro _; rfl
            · intro k hk h1 h2; simp at h1
            · intro habs; rfl
            · intro hq0
              rw [hq0] at hpq
              exact absurd hpq (by simp [serializeObjC])
          · by_cases hq0 : q = []
            · subst hq0
              rw [List.append_nil] at hpq
              subst hpq
              rw [hOfin']
              refine ⟨?_, ?_, ?_, ?_, ?_, ?_⟩
              · rintro ⟨k, hk, h1, h2⟩
                cases k with
                | zero =>
                    rw [bOff_zero] at h2
                    simp only [List.getD_cons_zero] at h2
                    omega
                | succ k' => simp at hk
              · intro _; rfl
              · intro habs; exact absurd habs (by simp [serializeObjC])
              · intro k hk h1 h2
                cases k with
                | zero => rw [bOff_zero]; simp
                | succ k' => simp at hk
              · intro habs; simp at habs
              · intro _
                rw [show bodyC [o] = serializeObjC o from rfl]
                simp [bodyEndStart, bOff_zero, emitOf]
            · obtain ⟨hbr, hos, hem⟩ := hOsplit p q hpq hp0 hq0
              have hppos : 0 < p.length := List.length_pos.mpr hp0
              have hqpos : 0 < q.length := List.length_pos.mpr hq0
              refine ⟨?_, ?_, ?_, ?_, ?_, ?_⟩
              · intro _; exact hbr
              · intro hn
                exfalso
                apply hn
                refine ⟨0, by simp, ?_, ?_⟩
                · rw [bOff_zero]; omega
                · rw [bOff_zero]
                  simp only [List.getD_cons_zero]
                  omega
              · intro habs; exact absurd habs hp0
              · intro k hk h1 h2
                cases k with
                | zero => rw [bOff_zero]; simpa using hos
                | succ k' => simp at hk
              · intro habs; simp at habs
              · intro habs; exact absurd habs hq0
      | cons r0 r' =>
          rw [show bodyC (o :: r0 :: r') = serializeObjC o ++ ',' :: bodyC (r0 :: r')
            from rfl] at hpq
          have hcomma : processChar parse
              ⟨a0 ++ serializeObjC o, 0, false, false, (a0.length : Int),
                m0 ++ emitOf parse o⟩ ',' =
              ⟨(a0 ++ serializeObjC o) ++ [','], 0, false, false, (a0.length : Int),
                m0 ++ emitOf parse o⟩ :=
            processChar_neutral parse _ ',' rfl (by decide) (by decide) (by decide)
          rcases List.append_eq_append_iff.mp hpq with ⟨a', ha1, ha2⟩ | ⟨c', hc1, hc2⟩
          · -- p covers the whole first object (and possibly more)
            subst ha1
            cases a' with
            | nil =>
                simp only [List.append_nil]
                rw [hOfin']
                have hq' : q = ',' :: bodyC (r0 :: r') := by simpa using ha2.symm
                refine ⟨?_, ?_, ?_, ?_, ?_, ?_⟩
                · rintro ⟨k, hk, h1, h2⟩
                  cases k with
                  | zero =>
                      rw [bOff_zero] at h2
                      simp only [List.getD_cons_zero] at h2
                      omega
                  | succ k' =>
                      rw [bOff_cons_succ] at h1
                      omega
                · intro _; rfl
                · intro habs; exact absurd habs (by simp [serializeObjC])
                · intro k hk h1 h2
                  cases k with
                  | zero => rw [bOff_zero]; simp
                  | succ k' =>
                      rw [bOff_cons_succ] at h1
                      omega
                · intro habs; simp at habs
                · intro hq0
                  rw [hq0] at hq'
                  exact absurd hq'.symm (by simp)
            | cons a1 a'' =>
                simp only [List.cons_append, List.cons.injEq] at ha2
                obtain ⟨rfl, htail⟩ := ha2
                have hsplitp : (serializeObjC o ++ ',' :: a'' : List Char) =
                    (serializeObjC o ++ [',']) ++ a'' := by simp
                have hst2 : scanList parse ⟨a0, 0, false, false, o0, m0⟩
                    (serializeObjC o ++ [',']) =
                    ⟨(a0 ++ serializeObjC o) ++ [','], 0, false, false, (a0.length : Int),
                      m0 ++ emitOf parse o⟩ := by
                  rw [scanList_append, hOfin', scanList_singleton, hcomma]
                have hscan : scanList parse ⟨a0, 0, false, false, o0, m0⟩
                    (serializeObjC o ++ ',' :: a'') =
                    scanList parse ⟨(a0 ++ serializeObjC o) ++ [','], 0, false, false,
                      (a0.length : Int), m0 ++ emitOf parse o⟩ a'' := by
                  rw [hsplitp, scanList_append, hst2]
                obtain ⟨ih1, ih2, ih3, ih4, ih5, ih6⟩ :=
                  ih ⟨(a0 ++ serializeObjC o) ++ [','], 0, false, false, (a0.length : Int),
                    m0 ++ emitOf parse o⟩ rfl rfl rfl a'' q htail
                have hplen : (serializeObjC o ++ ',' :: a'' : List Char).length =
                    (serializeObjC o).length + 1 + a''.length := by
                  rw [List.length_append, List.length_cons]
                  omega
                refine ⟨?_, ?_, ?_, ?_, ?_, ?_⟩
                · rintro ⟨k, hk, h1, h2⟩
                  rw [hscan]
                  cases k with
                  | zero =>
                      rw [bOff_zero] at h2
                      rw [hplen] at h2
                      simp only [List.getD_cons_zero] at h2
                      omega
                  | succ k' =>
                      apply ih1
                      refine ⟨k', by simpa using hk, ?_, ?_⟩
                      · rw [bOff_cons_succ] at h1
                        rw [hplen] at h1
                        omega
                      · rw [bOff_cons_succ] at h2
                        rw [hplen] at h2
                        simp only [List.getD_cons_succ] at h2
                        omega
                · intro hn
                  rw [hscan]
                  apply ih2
                  rintro ⟨k', hk', h1', h2'⟩
                  apply hn
                  refine ⟨k' + 1, by simpa using hk', ?_, ?_⟩
                  · rw [bOff_cons_succ, hplen]; omega
                  · rw [bOff_cons_succ, hplen]
                    simp only [List.getD_cons_succ]
                    omega
                · intro habs; exact absurd habs (by simp [serializeObjC])
                · intro k hk h1 h2
                  rw [hscan]
                  cases k with
                  | zero =>
                      rw [bOff_cons_succ, bOff_zero] at h2
                      rw [hplen] at h2
                      rw [bOff_zero] at h1 ⊢
                      have ha'' : a'' = [] := by
                        have : a''.length = 0 := by omega
                        exact List.length_eq_zero.mp this
                      subst ha''
                      rw [scanList_nil]
                      simp
                  | succ k' =>
                      have hres := ih4 k' (by simpa using hk)
                        (by rw [bOff_cons_succ] at h1; rw [hplen] at h1; omega)
                        (by rw [bOff_cons_succ] at h2; rw [hplen] at h2; omega)
                      rw [hres]
                      congr 1
                      rw [bOff_cons_succ]
                      simp only [List.length_append, List.length_cons, List.length_nil]
                      omega
                · intro habs; simp at habs
                · intro hq0
                  have hnat : ((a0 ++ serializeObjC o) ++ [',']).length +
                      bOff (r0 :: r') ((r0 :: r').length - 1) =
                      a0.length + bOff (o :: r0 :: r') ((o :: r0 :: r').length - 1) := by
                    have hb1 : (o :: r0 :: r' : List JObj).length - 1 = r'.length + 1 := by
                      simp
                    have hb2 : (r0 :: r' : List JObj).length - 1 = r'.length := by simp
                    rw [hb1, hb2, bOff_cons_succ]
                    simp only [List.length_append, List.length_cons, List.length_nil]
                    omega
                  rw [hscan, ih6 hq0]
                  rw [show bodyC (o :: r0 :: r') = serializeObjC o ++ ',' :: bodyC (r0 :: r')
                    from rfl]
                  rw [ScanState.mk.injEq]
                  refine ⟨by simp, by simp, by simp, by simp, ?_, by simp⟩
                  simp only [bodyEndStart, List.isEmpty_cons, Bool.false_eq_true, if_false]
                  show ((((a0 ++ serializeObjC o) ++ [',']).length +
                      bOff (r0 :: r') ((r0 :: r').length - 1) : Nat) : Int) =
                    ((a0.length + bOff (o :: r0 :: r') ((o :: r0 :: r').length - 1) : Nat) : Int)
                  exact congrArg Nat.cast hnat
          · -- p lies inside (or exactly at the end of) the first object
            by_cases hp0 : p = []
            · subst hp0
              rw [scanList_nil]
              refine ⟨?_, ?_, ?_, ?_, ?_, ?_⟩
              · rintro ⟨k, hk, h1, h2⟩; simp at h1
              · intro _; rfl
              · intro _; rfl
              · intro k hk h1 h2; simp at h1
              · intro habs; simp at habs
              · intro hq0
                rw [hq0] at hc2
                exact absurd hc2.symm (by simp)
            · by_cases hc0 : c' = []
              · subst hc0
                rw [List.append_nil] at hc1
                subst hc1
                rw [hOfin']
                refine ⟨?_, ?_, ?_, ?_, ?_, ?_⟩
                · rintro ⟨k, hk, h1, h2⟩
                  cases k with
                  | zero =>
                      rw [bOff_zero] at h2
                      simp only [List.getD_cons_zero] at h2
                      omega
                  | succ k' =>
                      rw [bOff_cons_succ] at h1
                      omega
                · intro _; rfl
                · intro habs; exact absurd habs hp0
                · intro k hk h1 h2
                  cases k with
                  | zero => rw [bOff_zero]; simp
                  | succ k' =>
                      rw [bOff_cons_succ] at h1
                      omega
                · intro habs; simp at habs
                · intro hq0
                  rw [hq0] at hc2
                  exact absurd hc2.symm (by simp)
              · obtain ⟨hbr, hos, hem⟩ := hOsplit p c' hc1 hp0 hc0
                have hplen2 : p.length < (serializeObjC o).length := by
                  have hl := congrArg List.length hc1
                  simp only [List.length_append] at hl
                  have := List.length_pos.mpr hc0
                  omega
                have hppos : 0 < p.length := List.length_pos.mpr hp0
                refine ⟨?_, ?_, ?_, ?_, ?_, ?_⟩
                · intro _; exact hbr
                · intro hn
                  exfalso
                  apply hn
                  refine ⟨0, by simp, ?_, ?_⟩
                  · rw [bOff_zero]; omega
                  · rw [bOff_zero]
                    simp only [List.getD_cons_zero]
                    omega
                · intro habs; exact absurd habs hp0
                · intro k hk h1 h2
                  cases k with
                  | zero => rw [bOff_zero]; simpa using hos
                  | succ k' =>
                      rw [bOff_cons_succ] at h1
                      omega
                · intro habs; simp at habs
                · intro hq0
                  rw [hq0] at hc2
                  exact absurd hc2.symm (by simp)

/-- C3 (amended): for every canonical serialization of an array of flat
objects and every way of cutting it into a scanned part `p` and a rest `q`,
the scanner's depth stays within {0, 1} (in particular it never goes
negative on such inputs), the depth is 0 exactly at the points that are not
strictly inside a top-level object (i.e. exactly between objects, before
the first and after the last), and `object_start` is "none" (-1) exactly
before the first object's `{` has been consumed — after an emission it is
*not* reset to -1 but keeps the emitted object's start offset until the
next top-level `{` overwrites it (there is no reset in the code). -/
theorem scan_depth_zero_exactly_between_objects {J : Type} (parse : List Char → Option J)
    (objs : List JObj) (p q : List Char) (hpq : serializeArrC objs = p ++ q) :
    (0 ≤ (scanList parse initState p).bracket_count ∧
      (scanList parse initState p).bracket_count ≤ 1) ∧
    ((scanList parse initState p).bracket_count = 0 ↔
      ¬ ∃ k, k < objs.length ∧ 1 + bOff objs k < p.length ∧
        p.length < 1 + bOff objs k + (serializeObjC (objs.getD k [])).length) ∧
    ((scanList parse initState p).object_start = -1 ↔ (objs = [] ∨ p.length ≤ 1)) ∧
    (∀ k, k < objs.length → 1 + bOff objs k < p.length → p.length ≤ 1 + bOff objs (k + 1) →
      (scanList parse initState p).object_start = ((1 + bOff objs k : Nat) : Int)) := by
  cases p with
  | nil =>
      rw [scanList_nil]
      refine ⟨⟨by norm_num [initState], by norm_num [initState]⟩, ?_, ?_, ?_⟩
      · constructor
        · rintro _ ⟨k, hk, h1, h2⟩
          simp at h1
        · intro _; rfl
      · constructor
        · intro _; right; simp
        · intro _; rfl
      · intro k hk h1 h2
        simp at h1
  | cons a p₁ =>
      rw [serializeArrC, List.cons_append] at hpq
      simp only [List.cons_append, List.cons.injEq] at hpq
      obtain ⟨rfl, htail⟩ := hpq
      have hLB : processChar parse (initState : ScanState J) '[' =
          ⟨['['], 0, false, false, -1, []⟩ :=
        processChar_neutral parse _ '[' rfl (by decide) (by decide) (by decide)
      have hscan0 : ∀ r : List Char, scanList parse (initState : ScanState J) ('[' :: r) =
          scanList parse ⟨['['], 0, false, false, -1, []⟩ r := by
        intro r
        rw [scanList_cons, hLB]
      have hplen : ∀ r : List Char, ('[' :: r : List Char).length = r.length + 1 := by
        intro r; rfl
      have hsplit2 : (∃ c', bodyC objs = p₁ ++ c') ∨
          (p₁ = bodyC objs ++ [']'] ∧ q = []) := by
        rcases List.append_eq_append_iff.mp htail with ⟨a', ha1, ha2⟩ | ⟨c', hc1, _⟩
        · cases a' with
          | nil =>
              rw [List.append_nil] at ha1
              exact Or.inl ⟨[], by rw [List.append_nil, ha1]⟩
          | cons x xs =>
              simp only [List.cons_append, List.cons.injEq] at ha2
              obtain ⟨rfl, h0⟩ := ha2
              obtain ⟨rfl, rfl⟩ := List.append_eq_nil.mp h0.symm
              exact Or.inr ⟨by simpa using ha1, rfl⟩
        · exact Or.inl ⟨c', hc1⟩
      rcases hsplit2 with ⟨c', hc1⟩ | ⟨hfull, rfl⟩
      · -- the scanned part ends inside the body (or at its very end)
        obtain ⟨b1, b2, b3, b4, b5, b6⟩ :=
          scanBodyC_split parse objs ⟨['['], 0, false, false, -1, []⟩ rfl rfl rfl p₁ c' hc1
        rw [hscan0]
        have hiff : (∃ k, k < objs.length ∧ 1 + bOff objs k < ('[' :: p₁ : List Char).length ∧
            ('[' :: p₁ : List Char).length <
              1 + bOff objs k + (serializeObjC (objs.getD k [])).length) ↔
            (∃ k, k < objs.length ∧ bOff objs k < p₁.length ∧
              p₁.length < bOff objs k + (serializeObjC (objs.getD k [])).length) := by
          rw [hplen]
          constructor
          · rintro ⟨k, hk, h1, h2⟩
            exact ⟨k, hk, by omega, by omega⟩
          · rintro ⟨k, hk, h1, h2⟩
            exact ⟨k, hk, by omega, by omega⟩
        refine ⟨?_, ?_, ?_, ?_⟩
        · by_cases hex : ∃ k, k < objs.length ∧ bOff objs k < p₁.length ∧
              p₁.length < bOff objs k + (serializeObjC (objs.getD k [])).length
          · rw [b1 hex]; exact ⟨by omega, by omega⟩
          · rw [b2 hex]; exact ⟨by omega, by omega⟩
        · rw [hiff]
          constructor
          · intro h0 hex
            rw [b1 hex] at h0
            exact one_ne_zero h0
          · intro hn
            exact b2 hn
        · constructor
          · intro h0
            by_contra hcon
            push_neg at hcon
            obtain ⟨hne, hgt⟩ := hcon
            rw [hplen] at hgt
            have hp1pos : 0 < p₁.length := by omega
            have hle : p₁.length ≤ bOff objs objs.length := by
              have h1 := congrArg List.length hc1
              simp only [List.length_append] at h1
              have h2 := bodyC_length_eq objs hne
              omega
            obtain ⟨k, hk, hk1, hk2⟩ := bOff_partition objs p₁.length hp1pos hle
            have := b4 k hk hk1 hk2
            rw [this] at h0
            have : (0 : Int) ≤ ((['['] : List Char).length + bOff objs k : Nat) := by
              exact_mod_cast Nat.zero_le _
            omega
          · rintro (rfl | hle)
            · exact b5 rfl
            · rw [hplen] at hle
              have hp1nil : p₁ = [] := List.length_eq_zero.mp (by omega)
              subst hp1nil
              rw [b3 rfl]
        · intro k hk h1 h2
          rw [hplen] at h1 h2
          have := b4 k hk (by omega) (by omega)
          rw [this]
          exact congrArg Nat.cast (by simp)
      · -- the scanned part is the whole array, including the closing bracket
        obtain ⟨b1, b2, b3, b4, b5, b6⟩ :=
          scanBodyC_split parse objs ⟨['['], 0, false, false, -1, []⟩ rfl rfl rfl
            (bodyC objs) [] (by simp)
        have hF : scanList parse ⟨['['], 0, false, false, -1, []⟩ (bodyC objs) =
            ⟨'[' :: bodyC objs, 0, false, false, bodyEndStart (-1) objs 1,
              (objs.map (emitOf parse)).flatten⟩ := b6 rfl
        have hRB : processChar parse
            ⟨'[' :: bodyC objs, 0, false, false, bodyEndStart (-1) objs 1,
              (objs.map (emitOf parse)).flatten⟩ ']' =
            ⟨('[' :: bodyC objs) ++ [']'], 0, false, false, bodyEndStart (-1) objs 1,
              (objs.map (emitOf parse)).flatten⟩ :=
          processChar_neutral parse _ ']' rfl (by decide) (by decide) (by decide)
        have hfinal : scanList parse (initState : ScanState J) ('[' :: p₁) =
            ⟨('[' :: bodyC objs) ++ [']'], 0, false, false, bodyEndStart (-1) objs 1,
              (objs.map (emitOf parse)).flatten⟩ := by
          rw [hscan0, hfull, scanList_append, hF, scanList_singleton, hRB]
        rw [hfinal]
        dsimp only
        have hplenfull : ('[' :: p₁ : List Char).length = (bodyC objs).length + 2 := by
          rw [hplen, hfull]
          simp
        refine ⟨by norm_num, ?_, ?_, ?_⟩
        · constructor
          · rintro _ ⟨k, hk, h1, h2⟩
            have hne : objs ≠ [] := by
              intro h; subst h; simp at hk
            have hsucc := bOff_succ objs k hk
            have hmono := bOff_mono objs (show k + 1 ≤ objs.length by omega)
            have hlen := bodyC_length_eq objs hne
            rw [hplenfull] at h2
            omega
          · intro _; rfl
        · cases objs with
          | nil =>
              simp [bodyEndStart]
          | cons o1 os =>
              constructor
              · intro h0
                exfalso
                rw [bodyEndStart, if_neg (by simp)] at h0
                have : (0 : Int) ≤ ((1 + bOff (o1 :: os) ((o1 :: os).length - 1) : Nat)) := by
                  exact_mod_cast Nat.zero_le _
                omega
              · rintro (habs | hle)
                · exact absurd habs (by simp)
                · rw [hplenfull] at hle
                  exfalso
                  omega
        · intro k hk h1 h2
          have hne : objs ≠ [] := by
            intro h; subst h; simp at hk
          have hlen := bodyC_length_eq objs hne
          rw [hplenfull] at h2
          have hk1n : k + 1 = objs.length := by
            by_contra hcon
            have hlt : k + 1 < objs.length := by omega
            have hs2 := bOff_succ objs (k + 1) hlt
            have hm := bOff_mono objs (show k + 1 + 1 ≤ objs.length by omega)
            omega
          have hrw : objs.length - 1 = k := by omega
          rw [bodyEndStart, if_neg (by simp [List.isEmpty_eq_true, hne]), hrw]

/-- C3, counterexample to the claim as stated: on the malformed stream
consisting of a single `}` the depth becomes -1 (the code just decrements,
lines 387-388), and after scanning the complete valid array
`[{"a":true}]` the scanner is between objects with depth 0 yet
`object_start` still holds offset 1 — it was never reset to "none". -/
theorem bracket_negative_and_start_not_reset :
    (Tutor.scanList (fun _ => (Option.none : Option Unit)) initState ['}']).bracket_count
        = -1 ∧
      ((-1 : Int) < 0) ∧
      (scanList (fun _ => (Option.none : Option Unit)) initState
          (serializeArrC [[("a", JVal.bool true)]])).bracket_count = 0 ∧
      (scanList (fun _ => (Option.none : Option Unit)) initState
          (serializeArrC [[("a", JVal.bool true)]])).object_start = 1 ∧
      ((1 : Int) ≠ -1) := by
  refine ⟨by decide, by decide, ?_, ?_, by decide⟩ <;> decide

theorem scan_depth_zero_exactly_between_objects_witness :
    (serializeArrC [[("a", JVal.bool true)]] =
        ['[', '{', '"', 'a', '"', ':'] ++ ['t', 'r', 'u', 'e', '}', ']']) ∧
      (0 ≤ (scanList (fun _ => (Option.none : Option Unit)) initState
          ['[', '{', '"', 'a', '"', ':']).bracket_count ∧
        (scanList (fun _ => (Option.none : Option Unit)) initState
          ['[', '{', '"', 'a', '"', ':']).bracket_count ≤ 1) :=
  ⟨by decide,
    (scan_depth_zero_exactly_between_objects (fun _ => (Option.none : Option Unit))
        [[("a", JVal.bool true)]] ['[', '{', '"', 'a', '"', ':']
        ['t', 'r', 'u', 'e', '}', ']'] (by decide)).1⟩

/-! ## Scanning a whitespace-decorated serialized array -/

theorem isWs_neutral (c : Char) (h : isWs c) : c ≠ '"' ∧ c ≠ '{' ∧ c ≠ '}' := by
  rcases h with rfl | rfl | rfl | rfl <;> exact (by decide)

theorem inertSeg_ws {J : Type} (parse : List Char → Option J) (w : List Char)
    (hw : ∀ c ∈ w, isWs c) : InertSeg parse w :=
  inertSeg_of_forall_neutral parse w fun c hc => isWs_neutral c (hw c hc)

/-- Scanning the whole body of a whitespace-decorated array from a clean
state: the scanner ends clean at depth 0 with exactly one `json.loads`
emission per object, in order. -/
theorem scanBodyWs_final {J : Type} (parse : List Char → Option J) (items : List WsItem)
    (st : ScanState J) (hb : st.bracket_count = 0) (hin : st.in_string = false)
    (hesc : st.escape_next = false)
    (hws : ∀ it ∈ items, (∀ c ∈ it.1, isWs c) ∧ (∀ c ∈ it.2.2, isWs c)) :
    ∃ v : Int, scanList parse st (bodyWs items) =
      { st with accumulated_content := st.accumulated_content ++ bodyWs items
                object_start := v
                emitted := st.emitted ++ (items.map fun it => emitOf parse it.2.1).flatten } := by
  induction items generalizing st with
  | nil =>
      exact ⟨st.object_start, by simp [bodyWs, scanList_nil]⟩
  | cons it rest ih =>
      obtain ⟨a, o, b⟩ := it
      obtain ⟨a0, b0, i0, e0, o0, m0⟩ := st
      replace hb : b0 = 0 := hb
      replace hin : i0 = false := hin
      replace hesc : e0 = false := hesc
      subst hb
      subst hin
      subst hesc
      have hwsa : ∀ c ∈ a, isWs c := (hws (a, o, b) (by simp)).1
      have hwsb : ∀ c ∈ b, isWs c := (hws (a, o, b) (by simp)).2
      obtain ⟨hAfin, _⟩ := inertSeg_ws parse a hwsa ⟨a0, 0, false, false, o0, m0⟩ rfl rfl
      have hAfin' : scanList parse ⟨a0, 0, false, false, o0, m0⟩ a =
          ⟨a0 ++ a, 0, false, false, o0, m0⟩ := hAfin
      obtain ⟨hOfin, _⟩ := scanObjC parse o ⟨a0 ++ a, 0, false, false, o0, m0⟩ rfl rfl rfl
      have hOfin' : scanList parse ⟨a0 ++ a, 0, false, false, o0, m0⟩ (serializeObjC o) =
          ⟨(a0 ++ a) ++ serializeObjC o, 0, false, false, ((a0 ++ a).length : Int),
            m0 ++ emitOf parse o⟩ := hOfin
      obtain ⟨hBfin, _⟩ := inertSeg_ws parse b hwsb
        ⟨(a0 ++ a) ++ serializeObjC o, 0, false, false, ((a0 ++ a).length : Int),
          m0 ++ emitOf parse o⟩ rfl rfl
      have hBfin' : scanList parse
          ⟨(a0 ++ a) ++ serializeObjC o, 0, false, false, ((a0 ++ a).length : Int),
            m0 ++ emitOf parse o⟩ b =
          ⟨((a0 ++ a) ++ serializeObjC o) ++ b, 0, false, false, ((a0 ++ a).length : Int),
            m0 ++ emitOf parse o⟩ := hBfin
      cases rest with
      | nil =>
          refine ⟨((a0 ++ a).length : Int), ?_⟩
          rw [show bodyWs [(a, o, b)] = (a ++ serializeObjC o) ++ b from by simp [bodyWs],
            scanList_append, scanList_append, hAfin', hOfin', hBfin']
          simp [emitOf]
      | cons it2 rest' =>
          have hcomma : processChar parse
              ⟨((a0 ++ a) ++ serializeObjC o) ++ b, 0, false, false,
                ((a0 ++ a).length : Int), m0 ++ emitOf parse o⟩ ',' =
              ⟨(((a0 ++ a) ++ serializeObjC o) ++ b) ++ [','], 0, false, false,
                ((a0 ++ a).length : Int), m0 ++ emitOf parse o⟩ :=
            processChar_neutral parse _ ',' rfl (by decide) (by decide) (by decide)
          obtain ⟨v, hrest⟩ := ih
            ⟨(((a0 ++ a) ++ serializeObjC o) ++ b) ++ [','], 0, false, false,
              ((a0 ++ a).length : Int), m0 ++ emitOf parse o⟩ rfl rfl rfl
            (fun x hx => hws x (by simp [hx]))
          refine ⟨v, ?_⟩
          rw [show bodyWs ((a, o, b) :: it2 :: rest') =
              (((a ++ serializeObjC o) ++ b) ++ [',']) ++ bodyWs (it2 :: rest')
            from by simp [bodyWs]]
          simp only [scanList_append]
          rw [hAfin', hOfin', hBfin', scanList_singleton, hcomma, hrest]
          simp

/-- C1: for every input token stream whose concatenation is a (whitespace-
decorated) JSON array of flat objects, delivered in arbitrary chunks —
including one character at a time — the scanner's pre-enrichment emission
log is exactly one `json.loads` result per top-level object, in the
array's original order.  `parse` abstracts `json.loads` and `f` its
denotation on each serialized object (its hypothesis `hp` is the library
fact that `json.loads` succeeds on a serialized object).  Chunk boundaries
are invisible, so an object split across two chunks yields exactly one
emission and two objects inside one chunk yield two, in order. -/
theorem scanner_emits_array_elements_in_order {J : Type} (parse : List Char → Option J)
    (f : JObj → J) (items : List WsItem) (wEnd : List Char) (chunks : List (List Char))
    (hws : ∀ it ∈ items, (∀ c ∈ it.1, isWs c) ∧ (∀ c ∈ it.2.2, isWs c))
    (hwe : ∀ c ∈ wEnd, isWs c)
    (hp : ∀ it ∈ items, parse (serializeObjC it.2.1) = some (f it.2.1))
    (hchunks : chunks.flatten = serializeArrWs items wEnd) :
    (scanChunks parse chunks).emitted = items.map fun it => f it.2.1 := by
  have hflat : ∀ (its : List WsItem),
      (∀ it ∈ its, parse (serializeObjC it.2.1) = some (f it.2.1)) →
      (its.map fun it => emitOf parse it.2.1).flatten = its.map fun it => f it.2.1 := by
    intro its
    induction its with
    | nil => intro _; rfl
    | cons it rest ih =>
        intro h
        have h1 := h it (by simp)
        rw [List.map_cons, List.flatten_cons, ih (fun x hx => h x (by simp [hx])),
          List.map_cons, emitOf, h1]
        rfl
  rw [scanChunks_eq_scanList_flatten, hchunks, serializeArrWs]
  have hLB : processChar parse (initState : ScanState J) '[' =
      ⟨['['], 0, false, false, -1, []⟩ :=
    processChar_neutral parse _ '[' rfl (by decide) (by decide) (by decide)
  obtain ⟨v, hbody⟩ := scanBodyWs_final parse items ⟨['['], 0, false, false, -1, []⟩
    rfl rfl rfl hws
  have hbody' : scanList parse ⟨['['], 0, false, false, -1, []⟩ (bodyWs items) =
      ⟨'[' :: bodyWs items, 0, false, false, v,
        (items.map fun it => emitOf parse it.2.1).flatten⟩ := hbody
  obtain ⟨hWfin, _⟩ := inertSeg_ws parse wEnd hwe
    ⟨'[' :: bodyWs items, 0, false, false, v,
      (items.map fun it => emitOf parse it.2.1).flatten⟩ rfl rfl
  have hWfin' : scanList parse
      ⟨'[' :: bodyWs items, 0, false, false, v,
        (items.map fun it => emitOf parse it.2.1).flatten⟩ wEnd =
      ⟨('[' :: bodyWs items) ++ wEnd, 0, false, false, v,
        (items.map fun it => emitOf parse it.2.1).flatten⟩ := hWfin
  have hRB : processChar parse
      ⟨('[' :: bodyWs items) ++ wEnd, 0, false, false, v,
        (items.map fun it => emitOf parse it.2.1).flatten⟩ ']' =
      ⟨(('[' :: bodyWs items) ++ wEnd) ++ [']'], 0, false, false, v,
        (items.map fun it => emitOf parse it.2.1).flatten⟩ :=
    processChar_neutral parse _ ']' rfl (by decide) (by decide) (by decide)
  rw [List.cons_append, List.cons_append, List.append_assoc, scanList_cons, hLB,
    scanList_append, hbody', scanList_append, hWfin', scanList_singleton, hRB]
  exact hflat items hp

theorem scanner_emits_array_elements_in_order_witness :
    (([['[', '{', '"', 'a', '"', ':', 't', 'r', 'u'], ['e', '}', ',', '{', '"', 'b', '"',
        ':', 'n', 'u', 'l', 'l', '}', ']']] : List (List Char)).flatten =
      serializeArrWs [([], [("a", JVal.bool true)], []), ([], [("b", JVal.null)], [])] []) ∧
      (scanChunks (fun l => some l)
          [['[', '{', '"', 'a', '"', ':', 't', 'r', 'u'], ['e', '}', ',', '{', '"', 'b', '"',
            ':', 'n', 'u', 'l', 'l', '}', ']']]).emitted =
        (([([], [("a", JVal.bool true)], []), ([], [("b", JVal.null)], [])] :
          List WsItem).map fun it => serializeObjC it.2.1) :=
  ⟨by decide,
    scanner_emits_array_elements_in_order (fun l => some l) serializeObjC
      ([([], [("a", JVal.bool true)], []), ([], [("b", JVal.null)], [])] : List WsItem) []
      [['[', '{', '"', 'a', '"', ':', 't', 'r', 'u'], ['e', '}', ',', '{', '"', 'b', '"',
        ':', 'n', 'u', 'l', 'l', '}', ']']]
      (by decide) (by decide) (by decide) (by decide)⟩

/-- C7: when the producer ends normally the generator emits the `[DONE]`
sentinel exactly once and as the last event, for every stream (so
regardless of the final `bracket_count`); and when the concatenated stream
ends with a dangling partial object (a nonempty strict front part `d` of a
serialized object, leaving the depth at 1), no object event is emitted for
that trailing content — the events are exactly one data event per complete
object followed by the sentinel. -/
theorem done_sentinel_fires_and_dangling_dropped (parse : List Char → Option Obj)
    (orc : Oracles) (chunks chunks2 : List (List Char)) (objs : List JObj) (o : JObj)
    (d e : List Char) (hd : d ≠ []) (he : e ≠ []) (hde : serializeObjC o = d ++ e)
    (hc2 : chunks2.flatten =
      '[' :: bodyC objs ++ (if objs.isEmpty then ([] : List Char) else [',']) ++ d) :
    ((event_generator parse orc chunks Option.none).count SseEvent.done = 1 ∧
      (event_generator parse orc chunks Option.none).getLast? = some SseEvent.done) ∧
    (scanChunks parse chunks2).emitted = (objs.map (emitOf parse)).flatten ∧
    (scanChunks parse chunks2).bracket_count = 1 ∧
    event_generator parse orc chunks2 Option.none =
      ((objs.map (emitOf parse)).flatten.map fun j => SseEvent.data (enrichObject orc j)) ++
        [SseEvent.done] := by
  have hLB : processChar parse (initState : ScanState Obj) '[' =
      ⟨['['], 0, false, false, -1, []⟩ :=
    processChar_neutral parse _ '[' rfl (by decide) (by decide) (by decide)
  obtain ⟨_, _, _, _, _, b6⟩ :=
    scanBodyC_split parse objs ⟨['['], 0, false, false, -1, []⟩ rfl rfl rfl
      (bodyC objs) [] (by simp)
  have hF : scanList parse ⟨['['], 0, false, false, -1, []⟩ (bodyC objs) =
      ⟨'[' :: bodyC objs, 0, false, false, bodyEndStart (-1) objs 1,
        (objs.map (emitOf parse)).flatten⟩ := b6 rfl
  have hsep : ∀ c ∈ (if objs.isEmpty then ([] : List Char) else [',']),
      c ≠ '"' ∧ c ≠ '{' ∧ c ≠ '}' := by
    split
    · intro c hc; simp at hc
    · intro c hc
      simp only [List.mem_singleton] at hc
      subst hc
      exact (by decide)
  obtain ⟨hSfin, _⟩ := inertSeg_of_forall_neutral parse _ hsep
    ⟨'[' :: bodyC objs, 0, false, false, bodyEndStart (-1) objs 1,
      (objs.map (emitOf parse)).flatten⟩ rfl rfl
  have hSfin' : scanList parse
      ⟨'[' :: bodyC objs, 0, false, false, bodyEndStart (-1) objs 1,
        (objs.map (emitOf parse)).flatten⟩
      (if objs.isEmpty then ([] : List Char) else [',']) =
      ⟨('[' :: bodyC objs) ++ (if objs.isEmpty then ([] : List Char) else [',']), 0, false,
        false, bodyEndStart (-1) objs 1, (objs.map (emitOf parse)).flatten⟩ := hSfin
  obtain ⟨_, hOsplit⟩ := scanObjC parse o
    ⟨('[' :: bodyC objs) ++ (if objs.isEmpty then ([] : List Char) else [',']), 0, false,
      false, bodyEndStart (-1) objs 1, (objs.map (emitOf parse)).flatten⟩ rfl rfl rfl
  obtain ⟨hbr, hos, hem⟩ := hOsplit d e hde hd he
  have hG : scanChunks parse chunks2 = scanList parse
      ⟨('[' :: bodyC objs) ++ (if objs.isEmpty then ([] : List Char) else [',']), 0, false,
        false, bodyEndStart (-1) objs 1, (objs.map (emitOf parse)).flatten⟩ d := by
    rw [scanChunks_eq_scanList_flatten, hc2, scanList_append, scanList_append,
      scanList_cons, hLB, hF, hSfin']
  have hcount : ∀ cs : List (List Char),
      (event_generator parse orc cs Option.none).count SseEvent.done = 1 ∧
      (event_generator parse orc cs Option.none).getLast? = some SseEvent.done := by
    intro cs
    constructor
    · rw [event_generator, List.count_append]
      have h0 : ((scanChunks parse cs).emitted.map fun o' =>
          SseEvent.data (enrichObject orc o')).count SseEvent.done = 0 := by
        rw [List.count_eq_zero]
        intro hmem
        obtain ⟨o', _, habs⟩ := List.mem_map.mp hmem
        exact SseEvent.noConfusion habs
      rw [h0]
      simp
    · rw [event_generator]
      exact List.getLast?_concat _
  refine ⟨hcount chunks, ?_, ?_, ?_⟩
  · rw [hG, hem]
  · rw [hG, hbr]
  · rw [event_generator, hG, hem]

theorem done_sentinel_fires_and_dangling_dropped_witness :
    (serializeObjC [("b", JVal.null)] =
        ['{', '"', 'b'] ++ ['"', ':', 'n', 'u', 'l', 'l', '}']) ∧
      (scanChunks (fun _ => (Option.none : Option Obj))
          [['[', '{', '"', 'a', '"', ':', 't', 'r', 'u', 'e', '}', ',', '{', '"',
            'b']]).bracket_count = 1 :=
  ⟨by decide,
    (done_sentinel_fires_and_dangling_dropped (fun _ => (Option.none : Option Obj))
        (Oracles.mk (fun _ => Except.error ()) (fun _ => Except.error ()) false) []
        [['[', '{', '"', 'a', '"', ':', 't', 'r', 'u', 'e', '}', ',', '{', '"', 'b']]
        [[("a", JVal.bool true)]] [("b", JVal.null)] ['{', '"', 'b']
        ['"', ':', 'n', 'u', 'l', 'l', '}'] (by decide) (by decide) (by decide)
        (by decide)).2.2.1⟩

end Tutor
